import Mathlib

/-!
# Verification of the spreadsheet dependency engine

Shallow embedding of the `cpp-spreadsheet` engine: `Position`, the sparse
`IndexedStorage` / `SheetStorage` containers (`src/design/sheet.h`), `Cell`
(`src/spreadsheet/cell.cpp`), and the `Sheet` engine with its dependency
graph, cycle check and cache invalidation (`src/spreadsheet/sheet.cpp`).

C++ exceptions are embedded as `Except` / an error component carried next to
the state; the `mutable` formula cache is an explicit `Option` field of a
cell; the `unordered_map` / `unordered_set` containers are embedded as
association lists / duplicate-free lists (iteration order is fixed by the
embedding where the C++ order is unspecified).
-/

/-- Error kinds surfaced by the engine: `InvalidPositionException`,
`FormulaException` ("FormulaSyntax") and `CircularDependencyException`,
plus `std::invalid_argument` ("NotFound") from `IndexedStorage`. -/
inductive SheetError
  | invalidPosition
  | formulaSyntax
  | circularDependency
  | notFound
deriving DecidableEq, Repr

/-- `Position` from `common.h` (not under `src/`). Modelled from the spec:
a `(row, column)` pair; `row ∈ [0, MAX_ROWS)`, `col ∈ [0, MAX_COLS)`. -/
structure Position where
  row : Int
  col : Int
deriving DecidableEq, Repr

/-- Modelled from the spec: maximal number of rows (the exact constant is
external to the engine sources; only `0 < MAX_ROWS` matters here). -/
def MAX_ROWS : Int := 16384

/-- Modelled from the spec: maximal number of columns. -/
def MAX_COLS : Int := 16384

/-- `Position::IsValid()`: row and column within `[0, MAX)`. -/
def Position.IsValid (p : Position) : Bool :=
  0 ≤ p.row && p.row < MAX_ROWS && 0 ≤ p.col && p.col < MAX_COLS

/-- `FORMULA_SIGN = '='` (`common.h`). -/
def FORMULA_SIGN : Char := '='

/-- `ESCAPE_SIGN = '\''` (`common.h`); written via its code point. -/
def ESCAPE_SIGN : Char := Char.ofNat 39

/-- `FormulaError::Category` (`formula.cpp`): `#REF!`, `#VALUE!`, `#DIV/0!`. -/
inductive FormulaError
  | ref
  | value
  | div0
deriving DecidableEq, Repr

/-- Modelled from the spec: the abstract syntax tree of the external formula
parser (`FormulaAST` is not under `src/`). The engine only observes a parsed
formula through `Evaluate`, `GetExpression` and `GetReferencedCells`, so a
small expression language with numbers, cell references and two arithmetic
operators (one of which can fail with `#DIV/0!`) suffices. -/
inductive Expr
  | num (n : Int)
  | ref (p : Position)
  | add (a b : Expr)
  | div (a b : Expr)
deriving DecidableEq, Repr

/-- The positions appearing in a formula's AST, in syntactic order
(model of `FormulaAST::GetCells` before sorting). -/
def collectRefs : Expr → List Position
  | .num _ => []
  | .ref p => [p]
  | .add a b => collectRefs a ++ collectRefs b
  | .div a b => collectRefs a ++ collectRefs b

/-- Lexicographic order on positions (the parser contract sorts referenced
cells; `Position::operator<` lives in `common.h`, outside `src/`). -/
def posLe (a b : Position) : Bool :=
  a.row < b.row || (a.row == b.row && a.col ≤ b.col)

/-- Sorted insertion used to model the AST's sorted cell list. -/
def insertPosSorted (p : Position) : List Position → List Position
  | [] => [p]
  | q :: rest => if posLe p q then p :: q :: rest else q :: insertPosSorted p rest

/-- Insertion sort on positions. -/
def sortPositions : List Position → List Position
  | [] => []
  | p :: rest => insertPosSorted p (sortPositions rest)

/-- `std::unique_copy` over the sorted cell list
(`Formula::GetReferencedCells`, `formula.cpp` lines 77-82): drops adjacent
duplicates. -/
def uniqueCopy : List Position → List Position
  | [] => []
  | [a] => [a]
  | a :: b :: rest =>
      if a = b then uniqueCopy (b :: rest) else a :: uniqueCopy (b :: rest)

/-- `Formula::GetReferencedCells`: sorted unique positions of the AST. -/
def exprReferencedCells (e : Expr) : List Position :=
  uniqueCopy (sortPositions (collectRefs e))

/-- Modelled from the spec: `ParseFormula` (the external parser,
`FormulaAST` is not under `src/`). The spec allows the parser to reject
formulas that mention out-of-range positions at parse time, and this model
takes that option, so every position a parsed formula references is valid.
The engine only depends on the parser through the returned handle, so a
finite table covering the expressions exercised in this development is an
adequate model; every other string is a parse failure. -/
def ParseFormula : String → Option Expr
  | "A1" => some (.ref ⟨0, 0⟩)
  | "B1" => some (.ref ⟨0, 1⟩)
  | "C1" => some (.ref ⟨0, 2⟩)
  | "D1" => some (.ref ⟨0, 3⟩)
  | "E1" => some (.ref ⟨0, 4⟩)
  | "A2" => some (.ref ⟨1, 0⟩)
  | "B2" => some (.ref ⟨1, 1⟩)
  | "B1+C1" => some (.add (.ref ⟨0, 1⟩) (.ref ⟨0, 2⟩))
  | "A1+3" => some (.add (.ref ⟨0, 0⟩) (.num 3))
  | "1/0" => some (.div (.num 1) (.num 0))
  | "7" => some (.num 7)
  | _ => none

/-- `Cell::ValueImpl` (`cell.h`): `std::variant<std::monostate, std::string,
FormulaValueImpl>`.  The formula arm keeps only the parsed handle: the
`sheet` back-pointer of `FormulaValueImpl` is the enclosing sheet, passed
explicitly at evaluation time in this embedding. -/
inductive CellContent
  | empty
  | text (s : String)
  | formula (e : Expr)
deriving DecidableEq, Repr

/-- `FormulaInterface::Value`: a number or a `FormulaError`. -/
inductive FormulaValue
  | num (n : Int)
  | err (e : FormulaError)
deriving DecidableEq, Repr

/-- `CellInterface::Value`: text, number, or `FormulaError`. -/
inductive CellValue
  | text (s : String)
  | num (n : Int)
  | err (e : FormulaError)
deriving DecidableEq, Repr

/-- A `Cell` (`cell.h`): the `value_` variant plus the `mutable cache_`
(`std::variant<std::monostate, FormulaInterface::Value>`; `none` is
`monostate`, i.e. no cached value). -/
structure Cell where
  content : CellContent
  cache : Option FormulaValue
deriving DecidableEq, Repr

/-- `text.size() > 1 && text.front() == FORMULA_SIGN` (`Cell::Set`). -/
def isFormulaText (text : String) : Bool :=
  match text.data with
  | c :: _ :: _ => c == FORMULA_SIGN
  | _ => false

/-- `std::string{text.begin() + 1, text.end()}`: the text without its
leading formula sign. -/
def textAfterSign (text : String) : String := ⟨text.data.drop 1⟩

/-- `Cell::Set(text)` (`cell.cpp` lines 19-35) on a fresh cell: empty text
clears the cell; text of size > 1 starting with `=` is parsed as a formula
(parse failure surfaces as `FormulaException`); anything else is stored as
literal text. A fresh cell carries no cache. -/
def Cell.set (text : String) : Except SheetError Cell :=
  if text == "" then .ok ⟨.empty, none⟩
  else if isFormulaText text then
    match ParseFormula (textAfterSign text) with
    | some e => .ok ⟨.formula e, none⟩
    | none => .error .formulaSyntax
  else .ok ⟨.text text, none⟩

/-- `Cell::GetReferencedCells` (`cell.cpp` lines 100-105): the formula's
referenced cells, or the empty list for empty/text cells. -/
def Cell.getReferencedCells (c : Cell) : List Position :=
  match c.content with
  | .formula e => exprReferencedCells e
  | _ => []

/-- Modelled from the spec: `Position::ToString` column letters, base 26
(`A = 0`, `Z = 25`, `AA = 26`, ...); `common.h` is not under `src/`. -/
def colLetters : Nat → String
  | n =>
    let c := Char.ofNat (65 + n % 26)
    if _h : n < 26 then ⟨[c]⟩
    else colLetters (n / 26 - 1) ++ ⟨[c]⟩
decreasing_by
  have h2 : n / 26 < n := Nat.div_lt_self (by omega) (by omega)
  omega

/-- Modelled from the spec: `Position::ToString` — column letters followed
by the 1-indexed row number. -/
def posToString (p : Position) : String :=
  colLetters p.col.toNat ++ toString (p.row + 1)

/-- Modelled from the spec: `FormulaAST::PrintFormula`, the normalized
expression text produced by the external parser. -/
def exprToText : Expr → String
  | .num n => toString n
  | .ref p => posToString p
  | .add a b => exprToText a ++ "+" ++ exprToText b
  | .div a b => exprToText a ++ "/" ++ exprToText b

/-- `Cell::GetText` (`cell.cpp` lines 84-98): empty → `""`, text verbatim,
formula → `"=" + GetExpression()`. -/
def Cell.getText (c : Cell) : String :=
  match c.content with
  | .empty => ""
  | .text s => s
  | .formula e => ⟨[FORMULA_SIGN]⟩ ++ exprToText e

/-- `Cell::InvalidateCache` (`cell.cpp` lines 108-110): clears the cache. -/
def Cell.invalidateCache (c : Cell) : Cell := ⟨c.content, none⟩

/-!
## `IndexedStorage` (`src/design/sheet.h` lines 31-170)

`data_` is an `unordered_map<Index, T>` (association list here, insertion
order) and `indices_` a `std::vector<Index>` kept in ascending order.
`T& operator[]` both reads and, through the returned reference, writes; it
is split into `opIndexRead` (read-or-default-insert, what a read through
the reference observes) and `store` (assignment through the reference).
-/

/-- Lookup in the `unordered_map` side: first binding of the key. -/
def lookupA {T : Type} : List (Int × T) → Int → Option T
  | [], _ => none
  | (k, v) :: rest, i => if k = i then some v else lookupA rest i

/-- Update the existing binding of a key in the `unordered_map` side. -/
def updateA {T : Type} : List (Int × T) → Int → T → List (Int × T)
  | [], _, _ => []
  | (k, v) :: rest, i, x => if k = i then (k, x) :: rest else (k, v) :: updateA rest i x

/-- Remove the binding of a key from the `unordered_map` side. -/
def eraseA {T : Type} : List (Int × T) → Int → List (Int × T)
  | [], _ => []
  | (k, v) :: rest, i => if k = i then rest else (k, v) :: eraseA rest i

/-- `std::lower_bound` insertion into the ascending `indices_` vector. -/
def insertIdxSorted (i : Int) : List Int → List Int
  | [] => [i]
  | j :: rest => if i ≤ j then i :: j :: rest else j :: insertIdxSorted i rest

/-- Sparse indexed storage: hash side plus ascending index vector. -/
structure IndexedStorage (T : Type) where
  data : List (Int × T)
  indices : List Int
deriving DecidableEq, Repr

namespace IndexedStorage

variable {T : Type}

/-- The default-constructed storage: both sides empty. -/
def emptyStorage : IndexedStorage T := ⟨[], []⟩

/-- `Count(index)` (line 88): 0 or 1. -/
def count (s : IndexedStorage T) (index : Int) : Nat :=
  match lookupA s.data index with
  | some _ => 1
  | none => 0

/-- `Empty()` (line 68). -/
def isEmpty (s : IndexedStorage T) : Bool := s.data.isEmpty

/-- `Size()` (line 73). -/
def size (s : IndexedStorage T) : Nat := s.data.length

/-- `T& operator[](Index)` (lines 41-50), observed as a read: if the index
is absent, a default-constructed `T` is inserted (`data_[index]`) and the
index is placed into the sorted vector; the pair is the value read through
the returned reference and the storage after the call. -/
def opIndexRead [Inhabited T] (s : IndexedStorage T) (index : Int) :
    T × IndexedStorage T :=
  match lookupA s.data index with
  | some v => (v, s)
  | none =>
      (default, ⟨s.data ++ [(index, default)], insertIdxSorted index s.indices⟩)

/-- Assignment `storage[index] = v` through the reference returned by
`operator[]` (lines 41-50): inserts the index into both sides when absent,
otherwise overwrites the mapped value. -/
def store (s : IndexedStorage T) (index : Int) (v : T) : IndexedStorage T :=
  match lookupA s.data index with
  | some _ => ⟨updateA s.data index v, s.indices⟩
  | none => ⟨s.data ++ [(index, v)], insertIdxSorted index s.indices⟩

/-- `T& At(Index)` — the non-const overload (lines 56-62): throws
`std::invalid_argument` ("NotFound") when the index is absent. -/
def atMut (s : IndexedStorage T) (index : Int) : Except SheetError T :=
  match lookupA s.data index with
  | some v => .ok v
  | none => .error .notFound

/-- `const T& At(Index) const` — the const overload (lines 64-66): the body
is `return const_cast<IndexedStorage&>(*this)[index];`, i.e. it delegates
to `operator[]`, which default-inserts an absent index instead of
throwing. The pair is the returned value and the storage after the call. -/
def atConst [Inhabited T] (s : IndexedStorage T) (index : Int) :
    T × IndexedStorage T :=
  opIndexRead s index

/-- `Erase(index)` (lines 92-102): throws `std::invalid_argument` when the
index is absent; otherwise removes it from both sides. -/
def erase (s : IndexedStorage T) (index : Int) : Except SheetError (IndexedStorage T) :=
  match lookupA s.data index with
  | some _ => .ok ⟨eraseA s.data index, s.indices.erase index⟩
  | none => .error .notFound

/-- `FrontIndex()` (line 111): minimal present index (callers guarantee
non-emptiness; `0` stands for the asserted-unreachable empty case). -/
def frontIndex (s : IndexedStorage T) : Int := s.indices.headD 0

/-- `BackIndex()` (line 116): maximal present index (callers guarantee
non-emptiness; `0` stands for the asserted-unreachable empty case). -/
def backIndex (s : IndexedStorage T) : Int := (s.indices.getLast?).getD 0

/-- Iteration over `(index, value)` pairs in ascending index order (the
value iterator, lines 150-164): each sorted index paired with its mapped
value. -/
def entries (s : IndexedStorage T) : List (Int × Option T) :=
  s.indices.map (fun i => (i, lookupA s.data i))

end IndexedStorage

/-!
## `SheetStorage` (`src/design/sheet.h` lines 290-376)

Two-level storage: `rows_` maps a row index to an `IndexedStorage` of
cells in that row.
-/

instance {T : Type} : Inhabited (IndexedStorage T) := ⟨IndexedStorage.emptyStorage⟩

/-- `Size` from `common.h` (not under `src/`): printable bounding box,
both fields default to `0`. -/
structure Size where
  rows : Int
  cols : Int
deriving DecidableEq, Repr

/-- Generalized 2D sheet storage. -/
structure SheetStorage (T : Type) where
  rows : IndexedStorage (IndexedStorage T)
deriving DecidableEq, Repr

namespace SheetStorage

variable {T : Type}

/-- A default-constructed (empty) sheet storage. -/
def emptySheetStorage : SheetStorage T := ⟨IndexedStorage.emptyStorage⟩

/-- `CheckValid(pos)` (lines 299-302): `InvalidPositionException` unless
`pos.IsValid()`. -/
def checkValid (pos : Position) : Except SheetError Unit :=
  if pos.IsValid then .ok () else .error .invalidPosition

/-- `Count()` (lines 304-310): total number of stored cells. -/
def countCells (s : SheetStorage T) : Nat :=
  (s.rows.data.map (fun rw => rw.2.size)).sum

/-- `Set(pos, data)` (lines 312-316): validate, then
`rows_[pos.row][pos.col] = data` — `operator[]` materializes the row when
absent, and the assignment through the returned reference overwrites or
inserts the column entry. -/
def set (s : SheetStorage T) (pos : Position) (v : T) :
    Except SheetError (SheetStorage T) :=
  match checkValid pos with
  | .error e => .error e
  | .ok _ =>
      let (rw, rows1) := s.rows.opIndexRead pos.row
      .ok ⟨rows1.store pos.row (rw.store pos.col v)⟩

/-- `Get(pos)` (lines 318-331): validate; `nullptr` when the row or the
column entry is absent, otherwise a pointer to the stored value. -/
def get (s : SheetStorage T) (pos : Position) : Except SheetError (Option T) :=
  match checkValid pos with
  | .error e => .error e
  | .ok _ =>
      if s.rows.count pos.row = 0 then .ok none
      else
        match lookupA s.rows.data pos.row with
        | none => .ok none   -- unreachable: count is positive
        | some rw =>
            if rw.count pos.col = 0 then .ok none
            else .ok (lookupA rw.data pos.col)

/-- `Clear(pos)` (lines 337-348): validate; no-op when absent; erase the
column entry and, if the row becomes empty, erase the whole row. -/
def clear (s : SheetStorage T) (pos : Position) :
    Except SheetError (SheetStorage T) :=
  match checkValid pos with
  | .error e => .error e
  | .ok _ =>
      if s.rows.count pos.row > 0 then
        match lookupA s.rows.data pos.row with
        | none => .ok s   -- unreachable: count is positive
        | some rw =>
            if rw.count pos.col > 0 then
              match rw.erase pos.col with
              | .error _ => .ok s   -- unreachable: the column entry is present
              | .ok rw' =>
                  if rw'.isEmpty then
                    match s.rows.erase pos.row with
                    | .error _ => .ok s   -- unreachable: the row is present
                    | .ok rows' => .ok ⟨rows'⟩
                  else .ok ⟨s.rows.store pos.row rw'⟩
            else .ok s
      else .ok s

/-- `GetPrintableSize()` (lines 350-362): `{0,0}` for an empty grid;
otherwise `rows = BackIndex()+1` of the row storage and `cols` the maximum
of `BackIndex()+1` over all non-empty rows (iterated in ascending row
order), starting from the default `0`. -/
def printableSize (s : SheetStorage T) : Size :=
  if s.rows.isEmpty then ⟨0, 0⟩
  else
    ⟨s.rows.backIndex + 1,
     s.rows.entries.foldl
       (fun acc entry =>
         match entry.2 with
         | some rw => if !rw.isEmpty then max acc (rw.backIndex + 1) else acc
         | none => acc)   -- unreachable: every index is mapped
       0⟩

end SheetStorage

/-!
## Dependency graph helpers (`Sheet::refs_from_`)

`std::unordered_map<Position, std::unordered_set<Position>>`, embedded as
an association list of duplicate-free lists.
-/

/-- The dependency graph: `refs_from_[q]` is the set of cells whose
formula references `q`. -/
abbrev RefsGraph := List (Position × List Position)

/-- Lookup of a key's value set (`refs_from_.find`). -/
def lookupG : RefsGraph → Position → Option (List Position)
  | [], _ => none
  | (k, l) :: rest, q => if k = q then some l else lookupG rest q

/-- The value set of a key, empty when the key is absent. -/
def adjG (g : RefsGraph) (q : Position) : List Position :=
  (lookupG g q).getD []

/-- Set insertion (`unordered_set::insert`): no-op when already present. -/
def insertP (p : Position) (l : List Position) : List Position :=
  if l.contains p then l else l ++ [p]

/-- Update the value set of an existing key. -/
def updateG : RefsGraph → Position → List Position → RefsGraph
  | [], _, _ => []
  | (k, l) :: rest, q, l' => if k = q then (k, l') :: rest else (k, l) :: updateG rest q l'

/-- Erase a key (`refs_from_.erase(it)`). -/
def eraseG : RefsGraph → Position → RefsGraph
  | [], _ => []
  | (k, l) :: rest, q => if k = q then rest else (k, l) :: eraseG rest q

/-- `refs_from_[ref_add].insert(pos)` (`sheet.cpp` line 165): `operator[]`
default-constructs the set for a fresh key, then inserts. -/
def graphAdd (g : RefsGraph) (q pos : Position) : RefsGraph :=
  match lookupG g q with
  | some l => updateG g q (insertP pos l)
  | none => g ++ [(q, insertP pos [])]

/-- Removal of one edge (`sheet.cpp` lines 169-176): erase `pos` from
`refs_from_[ref_del]` and drop the key when its set becomes empty. The
key is present and contains `pos` whenever this runs (the C++ asserts
it); an absent key is a no-op here. -/
def graphRemove (g : RefsGraph) (q pos : Position) : RefsGraph :=
  match lookupG g q with
  | none => g   -- unreachable: the C++ asserts the key exists
  | some l =>
      let l' := l.erase pos
      if l'.isEmpty then eraseG g q else updateG g q l'

/-- All vertices mentioned by the graph: keys and set members. -/
def vertsG (g : RefsGraph) : List Position :=
  g.foldr (fun kl acc => kl.1 :: kl.2 ++ acc) []

/-!
## The `Sheet` engine (`src/spreadsheet/sheet.cpp`)
-/

/-- The sheet: the cell grid plus the dependency graph. -/
structure Sheet where
  cells : SheetStorage Cell
  refs_from : RefsGraph
deriving DecidableEq, Repr

/-- A freshly constructed sheet: empty grid, empty graph. -/
def emptySheet : Sheet := ⟨SheetStorage.emptySheetStorage, []⟩

/-- `Sheet::GetCell` / `GetCellImpl` (`sheet.cpp` lines 53-75): forwards
to `cells_.Get(pos)` (which validates `pos`); `none` is the null pointer. -/
def Sheet.getCell (s : Sheet) (pos : Position) : Except SheetError (Option Cell) :=
  s.cells.get pos

/-- The loop of `Sheet::IsCircularReference` (`sheet.cpp` lines 187-208),
fuel-indexed. The C++ stack (`std::vector` with `push_back`/`pop_back`)
is a list whose head is the vector's back, so a batch of neighbor pushes
appears reversed at the head. Popping a vertex already in `discovered`
returns `true`; otherwise the vertex is discovered and every neighbor is
pushed, except that a neighbor equal to `pos` is skipped when the popped
vertex is in `refs_del` (that edge is being removed by the edit). Each
iteration that does not return discovers a new vertex, so the fuel used
by `isCircularReference` below can never run out (`false` on exhaustion
is arbitrary). -/
def isCircularLoop (g : RefsGraph) (pos : Position) (refs_del : List Position) :
    Nat → List Position → List Position → Bool
  | 0, _, _ => false
  | fuel + 1, queue, discovered =>
    match queue with
    | [] => false
    | v :: rest =>
        if discovered.contains v then true
        else
          let discovered' := v :: discovered
          let pushed := (adjG g v).filter
            (fun w => !(w == pos && refs_del.contains v))
          isCircularLoop g pos refs_del fuel (pushed.reverse ++ rest) discovered'

/-- `Sheet::IsCircularReference(pos, ref_add, refs_del)` (`sheet.cpp`
lines 179-209): depth-first walk over `refs_from_` seeded with the stack
`{pos, ref_add}` (so `ref_add` is popped first); reports a cycle when any
vertex is rediscovered. -/
def isCircularReference (g : RefsGraph) (pos ref_add : Position)
    (refs_del : List Position) : Bool :=
  isCircularLoop g pos refs_del ((vertsG g).length + 3) [ref_add, pos] []

/-- `refs_add` (`sheet.cpp` lines 130-140): new references not already
present among the old ones. -/
def refsAdd (old_refs new_refs : List Position) : List Position :=
  new_refs.filter (fun r => !old_refs.contains r)

/-- `refs_del` (`sheet.cpp` lines 143-153): old references not retained
among the new ones. -/
def refsDel (old_refs new_refs : List Position) : List Position :=
  old_refs.filter (fun r => !new_refs.contains r)

/-- The committing part of `Sheet::UpdateRefs` (`sheet.cpp` lines
163-176): first add `pos` to `refs_from_[r]` for every `r ∈ refs_add`,
then remove `pos` from `refs_from_[r]` for every `r ∈ refs_del`, erasing
keys whose set becomes empty. -/
def commitRefs (g : RefsGraph) (pos : Position)
    (refs_add refs_del : List Position) : RefsGraph :=
  let g1 := refs_add.foldl (fun acc r => graphAdd acc r pos) g
  refs_del.foldl (fun acc r => graphRemove acc r pos) g1

/-- `Sheet::UpdateRefs(pos, old_refs, new_refs)` (`sheet.cpp` lines
125-177): compute the added and removed reference sets, run the cycle
check for every added reference — throwing `CircularDependencyException`
before any mutation — and only then commit the graph diff. -/
def updateRefs (g : RefsGraph) (pos : Position)
    (old_refs new_refs : List Position) : Except SheetError RefsGraph :=
  let ra := refsAdd old_refs new_refs
  let rd := refsDel old_refs new_refs
  if ra.any (fun r => isCircularReference g pos r rd) then
    .error .circularDependency
  else
    .ok (commitRefs g pos ra rd)

/-- One body step of `Sheet::InvalidateCache` (`sheet.cpp` lines
222-224): `GetCellImpl(v)` and, when a cell is there,
`cell->InvalidateCache()`. Every vertex that enters the walk is a valid
position, so the `InvalidPositionException` that `cells_.Get` would raise
on an invalid one cannot occur; that dead branch leaves the grid as is. -/
def clearCacheAt (cells : SheetStorage Cell) (v : Position) : SheetStorage Cell :=
  match cells.get v with
  | .error _ => cells
  | .ok none => cells
  | .ok (some c) =>
      match cells.set v (Cell.invalidateCache c) with
      | .ok cells' => cells'
      | .error _ => cells   -- unreachable: `v` was just read successfully

/-- The loop of `Sheet::InvalidateCache` (`sheet.cpp` lines 218-234),
fuel-indexed (head of the list = back of the C++ vector). Pop `v`,
invalidate its cell's cache if the cell exists, insert `v` into
`discovered`, and push every neighbor not yet discovered. The second
component reports whether the queue was fully drained within the fuel. -/
def invalidateLoop (g : RefsGraph) :
    Nat → List Position → List Position → SheetStorage Cell →
    SheetStorage Cell × Bool
  | 0, queue, _, cells => (cells, queue.isEmpty)
  | fuel + 1, queue, discovered, cells =>
    match queue with
    | [] => (cells, true)
    | v :: rest =>
        let cells' := clearCacheAt cells v
        let discovered' := insertP v discovered
        let pushed := (adjG g v).filter (fun w => !discovered'.contains w)
        invalidateLoop g fuel (pushed.reverse ++ rest) discovered' cells'

/-- Tree-weight of a vertex, cut off at a recursion depth: `1` plus the
sum of the weights of its `refs_from_` successors. On an acyclic graph
the value stabilizes once the depth exceeds every path length, and then
bounds the number of iterations of the invalidate walk started at the
vertex. -/
def weightFuel (g : RefsGraph) : Nat → Position → Nat
  | 0, _ => 1
  | k + 1, v => 1 + ((adjG g v).map (weightFuel g k)).sum

/-- Fuel given to the invalidate walk: the stabilized tree-weight of the
start vertex (the graph is acyclic whenever the walk runs). -/
def invalidateFuel (g : RefsGraph) (pos : Position) : Nat :=
  weightFuel g ((vertsG g).length + 1) pos

/-- `Sheet::InvalidateCache(pos)` (`sheet.cpp` lines 212-235): depth-first
walk over `refs_from_` from `pos`, invalidating the cache of every visited
cell. -/
def Sheet.invalidateCache (s : Sheet) (pos : Position) : Sheet :=
  ⟨(invalidateLoop s.refs_from (invalidateFuel s.refs_from pos)
      [pos] [] s.cells).1,
   s.refs_from⟩

/-- The recursive `SetCell(ref, std::string{})` call of `Sheet::SetCell`
(`sheet.cpp` line 45), unfolded: the empty text yields an empty cell with
no references and a fresh cell has no cache, so the recursive call's
`UpdateRefs(ref, {}, {})` and placeholder loop do nothing, and what
remains is storing an empty cell and invalidating from `ref`. Callers
invoke this only after `GetCell(ref)` succeeded, so `ref` is valid and
the `Set` error branch is unreachable. -/
def Sheet.setEmptyAt (s : Sheet) (r : Position) : Sheet :=
  match s.cells.set r ⟨.empty, none⟩ with
  | .ok cells' => Sheet.invalidateCache ⟨cells', s.refs_from⟩ r
  | .error _ => s

/-- The placeholder loop of `Sheet::SetCell` (`sheet.cpp` lines 42-46):
for every new reference without a cell, recursively set an empty cell
there. `GetCell(ref)` validates `ref` and its exception propagates,
aborting the loop with the state mutated so far. -/
def Sheet.placeholderLoop (s : Sheet) : List Position → Sheet × Option SheetError
  | [] => (s, none)
  | r :: rest =>
    match s.getCell r with
    | .error e => (s, some e)
    | .ok (some _) => s.placeholderLoop rest
    | .ok none => (s.setEmptyAt r).placeholderLoop rest

/-- The old-reference collection of `Sheet::SetCell` (`sheet.cpp` lines
28-34): the referenced cells of the existing cell, empty when absent. -/
def oldRefsOf : Option Cell → List Position
  | some c => c.getReferencedCells
  | none => []

/-- `Sheet::SetCell(pos, text)` (`sheet.cpp` lines 23-51). The candidate
cell is constructed first (`Cell::Set`, which can throw
`FormulaException`); `GetCell(pos)` — which validates `pos` — then reads
the existing cell; `UpdateRefs` checks cycles and commits the graph diff;
the placeholder loop materializes referenced cells; the candidate is
stored; finally caches are invalidated from `pos`. The returned state is
the member state at normal return or at the throw point. -/
def Sheet.setCell (s : Sheet) (pos : Position) (text : String) :
    Sheet × Option SheetError :=
  match Cell.set text with
  | .error e => (s, some e)
  | .ok cell =>
    match s.getCell pos with
    | .error e => (s, some e)
    | .ok oldCell =>
      let old_refs := oldRefsOf oldCell
      let new_refs := cell.getReferencedCells
      match updateRefs s.refs_from pos old_refs new_refs with
      | .error e => (s, some e)
      | .ok g' =>
        match Sheet.placeholderLoop ⟨s.cells, g'⟩ new_refs with
        | (s2, some e) => (s2, some e)
        | (s2, none) =>
          match s2.cells.set pos cell with
          | .error e => (s2, some e)   -- unreachable: `pos` validated above
          | .ok cells' => (Sheet.invalidateCache ⟨cells', s2.refs_from⟩ pos, none)

/-- `Sheet::ClearCell(pos)` (`sheet.cpp` lines 77-84): when a cell exists
at `pos` (lookup validates `pos`), remove its outgoing references from the
graph via `UpdateRefs(pos, refs, {})` — whose cycle check is vacuous — and
erase the cell from the grid. No cache invalidation happens. -/
def Sheet.clearCell (s : Sheet) (pos : Position) : Sheet × Option SheetError :=
  match s.getCell pos with
  | .error e => (s, some e)
  | .ok none => (s, none)
  | .ok (some cell) =>
    match updateRefs s.refs_from pos cell.getReferencedCells [] with
    | .error e => (s, some e)   -- unreachable: `refs_add` is empty
    | .ok g' =>
      match SheetStorage.clear s.cells pos with
      | .error e => (⟨s.cells, g'⟩, some e)   -- unreachable: `pos` validated
      | .ok cells' => (⟨cells', g'⟩, none)

/-!
## Evaluation and printing
-/

/-- The value projection of literal text (`Cell::GetValue`, `cell.cpp`
lines 58-64): a leading `ESCAPE_SIGN` is stripped, everything else is
returned verbatim. -/
def textValueProjection (str : String) : String :=
  match str.data with
  | c :: rest => if c == ESCAPE_SIGN then ⟨rest⟩ else str
  | [] => str

/-- Modelled from the spec: the external evaluator's text-to-number
conversion (a `#VALUE!` error when the text is not numeric). Plain
decimal naturals suffice for this development; the real evaluator works
on doubles, whose arithmetic is outside this embedding. -/
def textToNumber (str : String) : Option Int :=
  if str.data ≠ [] ∧ str.data.all Char.isDigit then
    some (str.data.foldl (fun acc c => acc * 10 + ((c.toNat : Int) - 48)) 0)
  else none

/-- Wrap a formula result as a cell value (`FormulaValueVisitor`,
`cell.cpp` lines 42-44). -/
def FormulaValue.toCellValue : FormulaValue → CellValue
  | .num n => .num n
  | .err e => .err e

/-- Modelled from the spec: `FormulaAST::Execute` against the sheet view
(the AST lives outside `src/`). A reference to an invalid position is
`#REF!`; an absent or empty cell evaluates as `0`; a text cell evaluates
to its numeric value or `#VALUE!`; a formula cell contributes its cached
value when present, and is otherwise evaluated recursively (the fuel
covers every acyclic dependency chain; exhaustion yields `#REF!` and is
never reached on the sheets evaluated here). Errors propagate; division
by zero is `#DIV/0!`. -/
def evalExprGo (s : Sheet) (evalNested : Expr → FormulaValue) : Expr → FormulaValue
  | .num n => .num n
  | .ref p =>
      match s.cells.get p with
      | .error _ => .err .ref
      | .ok none => .num 0
      | .ok (some c) =>
          match c.content with
          | .empty => .num 0
          | .text str =>
              match textToNumber (textValueProjection str) with
              | some n => .num n
              | none => .err .value
          | .formula e => match c.cache with
              | some fv => fv
              | none => evalNested e
  | .add a b =>
      match evalExprGo s evalNested a with
      | .err e => .err e
      | .num x =>
          match evalExprGo s evalNested b with
          | .err e => .err e
          | .num y => .num (x + y)
  | .div a b =>
      match evalExprGo s evalNested a with
      | .err e => .err e
      | .num x =>
          match evalExprGo s evalNested b with
          | .err e => .err e
          | .num y => if y = 0 then .err .div0 else .num (x / y)

/-- Evaluation with a recursion-depth budget for chains of uncached
formula references: at depth `0` a nested uncached formula yields
`#REF!` (never reached on the acyclic sheets evaluated here). -/
def evalExpr (s : Sheet) : Nat → Expr → FormulaValue
  | 0 => evalExprGo s (fun _ => .err .ref)
  | fuel + 1 => evalExprGo s (evalExpr s fuel)

/-- Fuel that covers every acyclic chain of formula references. -/
def evalFuelOf (s : Sheet) : Nat := SheetStorage.countCells s.cells + 1

/-- `Cell::GetValue` (`cell.cpp` lines 46-81): empty → `""`; text → the
escape-stripped value; formula → the cached value when present, otherwise
the formula is evaluated against the sheet and the result stored in the
cache. The returned cell carries the updated `mutable` cache. -/
def Cell.getValue (c : Cell) (s : Sheet) : CellValue × Cell :=
  match c.content with
  | .empty => (.text "", c)
  | .text str => (.text (textValueProjection str), c)
  | .formula e =>
      match c.cache with
      | some fv => (fv.toCellValue, c)
      | none =>
          let fv := evalExpr s (evalFuelOf s) e
          (fv.toCellValue, ⟨c.content, some fv⟩)

/-- Reading a cell's value through the public interface:
`GetCell(pos)->GetValue()`. The cache update through the `mutable` field
is written back to the grid; an invalid position or a null cell yields no
value and leaves the sheet untouched. -/
def Sheet.getValueAt (s : Sheet) (pos : Position) : Option CellValue × Sheet :=
  match s.cells.get pos with
  | .error _ => (none, s)
  | .ok none => (none, s)
  | .ok (some c) =>
      let (v, c') := c.getValue s
      match s.cells.set pos c' with
      | .ok cells' => (some v, ⟨cells', s.refs_from⟩)
      | .error _ => (some v, s)   -- unreachable: `pos` was read successfully

/-- Rendering of a cell value for `PrintValues` (`operator<<` on
`CellInterface::Value`, `sheet.cpp` lines 90-94 with
`FormulaError::ToString`). -/
def CellValue.render : CellValue → String
  | .text s => s
  | .num n => toString n
  | .err .ref => "#REF!"
  | .err .value => "#VALUE!"
  | .err .div0 => "#DIV/0!"

/-- One printed row of `Sheet::Print` with the value printer (`sheet.cpp`
lines 108-123): cells of columns `[0, cols)`, tab-separated, each absent
cell rendered empty; `GetValue` cache updates thread through the sheet. -/
def printRowValues (s : Sheet) (row : Int) (cols : Nat) : String × Sheet :=
  (List.range cols).foldl
    (fun acc c =>
      let sep := if c = 0 then "" else "\t"
      match Sheet.getValueAt acc.2 ⟨row, (c : Int)⟩ with
      | (some v, s') => (acc.1 ++ sep ++ v.render, s')
      | (none, s') => (acc.1 ++ sep, s'))
    ("", s)

/-- `Sheet::PrintValues` (`sheet.cpp` lines 96-100): the printable box,
row by row, each row terminated by a newline. -/
def Sheet.printValues (s : Sheet) : String × Sheet :=
  let size := s.cells.printableSize
  (List.range size.rows.toNat).foldl
    (fun acc r =>
      let (line, s') := printRowValues acc.2 (r : Int) size.cols.toNat
      (acc.1 ++ line ++ "\n", s'))
    ("", s)

/-- One printed row of `Sheet::Print` with the text printer: `GetText` is
a pure read, so the sheet does not change. -/
def printRowTexts (s : Sheet) (row : Int) (cols : Nat) : String :=
  (List.range cols).foldl
    (fun acc c =>
      let sep := if c = 0 then "" else "\t"
      match s.cells.get ⟨row, (c : Int)⟩ with
      | .ok (some cell) => acc ++ sep ++ cell.getText
      | _ => acc ++ sep)
    ""

/-- `Sheet::PrintTexts` (`sheet.cpp` lines 102-106). -/
def Sheet.printTexts (s : Sheet) : String :=
  let size := s.cells.printableSize
  (List.range size.rows.toNat).foldl
    (fun acc r => acc ++ printRowTexts s (r : Int) size.cols.toNat ++ "\n")
    ""

/-!
## Public operations

The public interface of `Sheet` (`SheetInterface`): `SetCell`,
`ClearCell`, `GetCell` (with a `GetValue`/`GetText` read through the
returned pointer), `GetPrintableSize`, `PrintValues`, `PrintTexts`.
`runOps` is an arbitrary interaction with a fresh sheet; the invariant
claims quantify over it.
-/

/-- One public operation on a sheet. -/
inductive SheetOp
  | set (pos : Position) (text : String)
  | clear (pos : Position)
  | getCell (pos : Position)
  | getValue (pos : Position)
  | printValues
  | printTexts

/-- The state reached after a public operation (`GetCell`, `GetText`,
`GetPrintableSize` and `PrintTexts` are pure reads; `GetValue` and
`PrintValues` update caches). -/
def applyOp (s : Sheet) : SheetOp → Sheet
  | .set pos text => (s.setCell pos text).1
  | .clear pos => (s.clearCell pos).1
  | .getCell _ => s
  | .getValue pos => (s.getValueAt pos).2
  | .printValues => s.printValues.2
  | .printTexts => s

/-- The sheet reached from a fresh sheet by a sequence of public
operations. -/
def runOps (ops : List SheetOp) : Sheet :=
  ops.foldl applyOp emptySheet

/-!
## Observations and specification-side notions

Pure observations of the state (no validity side conditions) and the
graph-theoretic notions the claims speak about.
-/

/-- Decidable equality of `Except` results (not derived by core). -/
instance {ε α : Type} [DecidableEq ε] [DecidableEq α] : DecidableEq (Except ε α)
  | .ok a, .ok b =>
      if h : a = b then isTrue (by rw [h])
      else isFalse (by intro hh; cases hh; exact h rfl)
  | .ok _, .error _ => isFalse (by intro h; cases h)
  | .error _, .ok _ => isFalse (by intro h; cases h)
  | .error e, .error f =>
      if h : e = f then isTrue (by rw [h])
      else isFalse (by intro hh; cases hh; exact h rfl)

/-- The cell stored at a position, as a pure observation of the grid
(the two-level lookup `Get` performs, without the validity check). -/
def gridAt {T : Type} (st : SheetStorage T) (pos : Position) : Option T :=
  (lookupA st.rows.data pos.row).bind (fun rw => lookupA rw.data pos.col)

/-- The content of the cell stored at a position — the observation the
frame claims speak about: the cache is logically-mutable state and does
not count as content. -/
def contentAt (st : SheetStorage Cell) (pos : Position) : Option CellContent :=
  (gridAt st pos).map Cell.content

/-- The references the cell stored at `p` carries (empty when no cell or
a non-formula cell is there). -/
def contentRefsAt (s : Sheet) (p : Position) : List Position :=
  match gridAt s.cells p with
  | some c => c.getReferencedCells
  | none => []

/-- The edge relation of the walk over `refs_from_`: from a vertex to the
members of its value set (from a referenced cell to its referrers). -/
def adjRel (g : RefsGraph) (a b : Position) : Prop := b ∈ adjG g a

/-- `v` reaches `w` by at least one `refs_from_` edge: there is a chain
`v → … → w`. -/
def ReachesStrict (g : RefsGraph) (v w : Position) : Prop :=
  ∃ l : List Position, List.Chain (adjRel g) v (l ++ [w])

/-- The graph has no cycle: no vertex reaches itself. -/
def Acyclic (g : RefsGraph) : Prop := ∀ v, ¬ ReachesStrict g v v

/-- Bounded reachability: a chain of length at least 1 and at most `fuel`
from `v` to `w`. -/
def reachableWithin (g : RefsGraph) : Nat → Position → Position → Bool
  | 0, _, _ => false
  | fuel + 1, v, w =>
      (adjG g v).any (fun u => u == w || reachableWithin g fuel u w)

/-- Decidable acyclicity: no vertex of the graph reaches itself within
`|vertsG g|` steps. Equivalent to `Acyclic` (longer cycles always contain
this short a cycle). -/
def AcyclicB (g : RefsGraph) : Bool :=
  (vertsG g).all (fun v => !reachableWithin g (vertsG g).length v v)

/-- Keys of the dependency graph map are pairwise distinct (an
`unordered_map` cannot hold a key twice). -/
def GraphKeysNodup (g : RefsGraph) : Prop := (g.map Prod.fst).Nodup

/-- Every vertex the graph mentions is a valid position (every edge is
created from a validated referrer and a parser-approved reference). -/
def ValidVerts (g : RefsGraph) : Prop :=
  ∀ v ∈ vertsG g, v.IsValid = true

/-- The cell stored at `x`, if any, holds no cached value. -/
def CacheCleared (cells : SheetStorage Cell) (x : Position) : Prop :=
  ∀ c : Cell, gridAt cells x = some c → c.cache = none

/-- Well-formedness of an `IndexedStorage`: distinct hash-side keys, a
strictly ascending index vector, and agreement of the two sides. -/
structure StorageWF {T : Type} (st : IndexedStorage T) : Prop where
  keysNodup : (st.data.map Prod.fst).Nodup
  indicesSorted : st.indices.Chain' (· < ·)
  indicesMatch : ∀ i : Int, i ∈ st.indices ↔ (lookupA st.data i).isSome

/-- Well-formedness of the two-level grid: both levels well-formed, no
empty row stored, and every stored index within the valid range. -/
structure GridWF (st : SheetStorage Cell) : Prop where
  rowsWF : StorageWF st.rows
  rowWF : ∀ i rw, lookupA st.rows.data i = some rw → StorageWF rw
  rowsNonempty : ∀ i rw, lookupA st.rows.data i = some rw → rw.data ≠ []
  rowIdxValid : ∀ i rw, lookupA st.rows.data i = some rw →
    0 ≤ i ∧ i < MAX_ROWS
  colIdxValid : ∀ i rw, lookupA st.rows.data i = some rw →
    ∀ j c, lookupA rw.data j = some c → 0 ≤ j ∧ j < MAX_COLS

/-- Well-formedness of the dependency graph side: distinct keys, each
value set duplicate-free and non-empty, and the graph/grid
correspondence — `p ∈ refs_from_[q]` exactly when the cell stored at `p`
is a formula whose referenced cells contain `q`. -/
structure GraphWF (s : Sheet) : Prop where
  keysNodup : GraphKeysNodup s.refs_from
  setsNodup : ∀ q l, lookupG s.refs_from q = some l → l.Nodup
  setsNonempty : ∀ q l, lookupG s.refs_from q = some l → l ≠ []
  graphIff : ∀ p q, p ∈ adjG s.refs_from q ↔ q ∈ contentRefsAt s p

/-- Full well-formedness of an engine state. -/
structure SheetWF (s : Sheet) : Prop where
  grid : GridWF s.cells
  graph : GraphWF s

/-!
## Lemmas: error classification of the storage operations
-/

theorem checkValid_ok {pos : Position} (h : pos.IsValid = true) :
    SheetStorage.checkValid pos = .ok () := by
  simp [SheetStorage.checkValid, h]

theorem checkValid_error {pos : Position} (h : pos.IsValid = false) :
    SheetStorage.checkValid pos = .error .invalidPosition := by
  simp [SheetStorage.checkValid, h]

theorem get_error_classify {T : Type} {st : SheetStorage T} {pos : Position}
    {e : SheetError} (h : st.get pos = .error e) :
    e = .invalidPosition ∧ pos.IsValid = false := by
  by_cases hv : pos.IsValid
  · exfalso
    simp only [SheetStorage.get, checkValid_ok hv] at h
    split at h
    · simp at h
    · split at h
      · simp at h
      · split at h <;> simp at h
  · have hv' : pos.IsValid = false := by simpa using hv
    simp only [SheetStorage.get, checkValid_error hv'] at h
    cases h
    exact ⟨rfl, hv'⟩

theorem set_error_classify {T : Type} {st : SheetStorage T} {pos : Position}
    {v : T} {e : SheetError} (h : st.set pos v = .error e) :
    e = .invalidPosition ∧ pos.IsValid = false := by
  by_cases hv : pos.IsValid
  · simp [SheetStorage.set, checkValid_ok hv] at h
  · have hv' : pos.IsValid = false := by simpa using hv
    simp only [SheetStorage.set, checkValid_error hv'] at h
    cases h
    exact ⟨rfl, hv'⟩

theorem getCell_error_classify {s : Sheet} {pos : Position} {e : SheetError}
    (h : s.getCell pos = .error e) :
    e = .invalidPosition ∧ pos.IsValid = false :=
  get_error_classify h

/-- Errors escaping the placeholder loop come from `GetCell`'s position
check only. -/
theorem placeholderLoop_error_classify :
    ∀ (refs : List Position) (s s2 : Sheet) (e : SheetError),
      s.placeholderLoop refs = (s2, some e) → e = .invalidPosition := by
  intro refs
  induction refs with
  | nil => intro s s2 e h; simp [Sheet.placeholderLoop] at h
  | cons r rest ih =>
      intro s s2 e h
      simp only [Sheet.placeholderLoop] at h
      split at h
      · rename_i e' he
        obtain ⟨rfl, -⟩ : e' = SheetError.invalidPosition ∧ _ :=
          getCell_error_classify he
        cases h; rfl
      · exact ih _ _ _ h
      · exact ih _ _ _ h

/-!
## Claims C7, C6, C2, C1, C3
-/

/-- C7: `At(i)` on an absent index: the claim asks both overloads to fail
with NotFound without inserting. The non-const overload does (first two
conjuncts, shown at index `2` of an empty and of a one-entry storage),
but the const overload is `return const_cast<IndexedStorage&>(*this)[index];`
— it delegates to `operator[]`, which default-inserts the absent index
and returns the fresh entry instead of failing (last two conjuncts: the
call returns the default value and the container afterwards holds an
entry for `2`). -/
theorem atConst_default_inserts_on_absent :
    IndexedStorage.atMut (⟨[], []⟩ : IndexedStorage Int) 2 = .error .notFound ∧
    IndexedStorage.atMut (⟨[(1, 7)], [1]⟩ : IndexedStorage Int) 2 = .error .notFound ∧
    IndexedStorage.atConst (⟨[], []⟩ : IndexedStorage Int) 2 = (0, ⟨[(2, 0)], [2]⟩) ∧
    (IndexedStorage.atConst (⟨[], []⟩ : IndexedStorage Int) 2).2.count 2 = 1 := by
  decide

/-- C6 (counterexample): `SetCell` on the invalid position `(-1, -1)`
with the unparsable formula text `"=("` fails with `FormulaSyntax`, not
`InvalidPosition`: the candidate cell is constructed (and its parse
error thrown) before `GetCell(pos)` performs the position check. -/
theorem setCell_invalid_pos_can_fail_syntax :
    (Position.IsValid ⟨-1, -1⟩) = false ∧
    emptySheet.setCell ⟨-1, -1⟩ "=(" = (emptySheet, some .formulaSyntax) ∧
    some SheetError.formulaSyntax ≠ some SheetError.invalidPosition := by
  decide

/-- C6 (amended): for an invalid position, `SetCell(pos, t)` fails with
`InvalidPosition` provided the candidate construction itself does not
fail, i.e. whenever `t` is not an unparsable formula; the position check
runs when the existing cell is looked up, after the candidate cell is
constructed, so `FormulaSyntax` takes precedence for unparsable texts.
The state is returned unchanged. -/
theorem setCell_invalid_pos_invalidPosition (s : Sheet) (pos : Position)
    (text : String) (c : Cell) (hv : pos.IsValid = false)
    (hc : Cell.set text = .ok c) :
    s.setCell pos text = (s, some .invalidPosition) := by
  simp only [Sheet.setCell, hc, Sheet.getCell, SheetStorage.get,
    checkValid_error hv]

/-- Witness for the amended C6 theorem at `pos = (-1, 0)`, `text = "x"`. -/
theorem setCell_invalid_pos_invalidPosition_witness :
    emptySheet.setCell ⟨-1, 0⟩ "x" = (emptySheet, some .invalidPosition) :=
  setCell_invalid_pos_invalidPosition emptySheet ⟨-1, 0⟩ "x"
    ⟨.text "x", none⟩ (by decide) (by decide)

/-- C2: a `SetCell` that fails with `FormulaSyntax` or
`CircularDependency` returns the sheet — grid, dependency graph and every
cache — exactly as it was: the parse error is thrown before any member is
touched, and the cycle check runs before the graph diff is committed.
(The classification lemma for the placeholder loop rules those two errors
out of the only failure point that lies after a mutation.) -/
theorem setCell_error_atomic (s : Sheet) (pos : Position) (text : String)
    (s' : Sheet) (e : SheetError) (h : s.setCell pos text = (s', some e))
    (he : e = .formulaSyntax ∨ e = .circularDependency) :
    s' = s := by
  simp only [Sheet.setCell] at h
  split at h
  · cases h; rfl
  · split at h
    · cases h; rfl
    · split at h
      · cases h; rfl
      · split at h
        · rename_i s2 e2 hloop
          cases h
          have := placeholderLoop_error_classify _ _ _ _ hloop
          subst this
          rcases he with h' | h' <;> cases h'
        · split at h
          · rename_i e3 hset
            cases h
            obtain ⟨rfl, -⟩ := set_error_classify hset
            rcases he with h' | h' <;> cases h'
          · cases h

/-- Witness for C2 at a syntax failure and at a cycle failure. -/
theorem setCell_error_atomic_witness :
    emptySheet = emptySheet ∧
    (emptySheet.setCell ⟨0, 0⟩ "=(").1 = emptySheet := by
  constructor
  · rfl
  · exact setCell_error_atomic emptySheet ⟨0, 0⟩ "=("
      (emptySheet.setCell ⟨0, 0⟩ "=(").1 .formulaSyntax (by decide)
      (Or.inl rfl)

/-- C1: the cycle check has a false positive, so it is not sound for the
post-edit snapshot. On a sheet holding only `A1 = "=B1+C1"` (so
`refs_from = {B1 ↦ {A1}, C1 ↦ {A1}}`), the edit `SetCell(B1, "=C1")`
fails with `CircularDependency` (first conjunct, state unchanged) because
the walk seeded `{B1, C1}` reaches `A1` twice — once from each seed —
and `IsCircularReference`, unlike `InvalidateCache`, pushes neighbors
without consulting the discovered set, so rediscovery does not imply a
cycle. Yet the graph that committing the edit would produce — the code's
own `commitRefs` applied to the `refs_add`/`refs_del` the code computes
(the old cell at `B1` is an empty placeholder, `old_refs = ∅`,
`new_refs = {C1}`) — is acyclic (second conjunct). -/
theorem cycleCheck_false_positive :
    ((emptySheet.setCell ⟨0, 0⟩ "=B1+C1").1.setCell ⟨0, 1⟩ "=C1") =
      ((emptySheet.setCell ⟨0, 0⟩ "=B1+C1").1, some .circularDependency) ∧
    AcyclicB (commitRefs (emptySheet.setCell ⟨0, 0⟩ "=B1+C1").1.refs_from
      ⟨0, 1⟩ (refsAdd [] [⟨0, 2⟩]) (refsDel [] [⟨0, 2⟩])) = true := by
  decide

/-- C3: `ClearCell` does not invalidate referrer caches, so re-reading a
referrer returns the stale cached value instead of re-evaluating. Run:
`SetCell(B1, "5"); SetCell(A1, "=B1"); GetValue(A1)` (caches `5` at
`A1`); `ClearCell(B1)`. Then `GetValue(A1)` still returns `5` from the
cache (first conjunct) and leaves the sheet untouched, i.e. no
re-evaluation happened (second conjunct); the stored cell at `A1` indeed
still carries the cached `5` (third conjunct); a fresh evaluation of
`A1`'s formula against the cleared sheet — what the claim says the read
performs — sees an empty cell at `B1` and yields `0 ≠ 5` (last
conjunct). -/
theorem clearCell_stale_cache :
    (let s3 := (((((emptySheet.setCell ⟨0, 1⟩ "5").1.setCell
        ⟨0, 0⟩ "=B1").1.getValueAt ⟨0, 0⟩).2.clearCell ⟨0, 1⟩).1)
     (s3.getValueAt ⟨0, 0⟩).1 = some (.num 5) ∧
     (s3.getValueAt ⟨0, 0⟩).2 = s3 ∧
     gridAt s3.cells ⟨0, 0⟩ =
       some ⟨.formula (.ref ⟨0, 1⟩), some (.num 5)⟩ ∧
     evalExpr s3 (evalFuelOf s3) (.ref ⟨0, 1⟩) = .num 0) := by
  decide

/-!
## Lemmas: association lists and `IndexedStorage`
-/

theorem lookupA_updateA_self {T : Type} :
    ∀ (d : List (Int × T)) (i : Int) (v : T),
      (lookupA d i).isSome → lookupA (updateA d i v) i = some v := by
  intro d i v h
  induction d with
  | nil => simp [lookupA] at h
  | cons kv rest ih =>
      obtain ⟨k, w⟩ := kv
      by_cases hk : k = i
      · subst hk; simp [lookupA, updateA]
      · simp only [lookupA, updateA, if_neg hk] at h ⊢
        exact ih h

theorem updateA_absent {T : Type} :
    ∀ (d : List (Int × T)) (i : Int) (v : T),
      lookupA d i = none → updateA d i v = d := by
  intro d i v h
  induction d with
  | nil => rfl
  | cons kv rest ih =>
      obtain ⟨k, w⟩ := kv
      by_cases hk : k = i
      · subst hk; simp [lookupA] at h
      · simp only [lookupA, if_neg hk] at h
        simp [updateA, if_neg hk, ih h]

theorem lookupA_updateA_other {T : Type} :
    ∀ (d : List (Int × T)) (i i' : Int) (v : T), i' ≠ i →
      lookupA (updateA d i v) i' = lookupA d i' := by
  intro d i i' v hne
  induction d with
  | nil => rfl
  | cons kv rest ih =>
      obtain ⟨k, w⟩ := kv
      by_cases hk : k = i
      · subst hk
        simp [updateA, lookupA, show ¬(k = i') from fun h => hne h.symm]
      · simp only [updateA, if_neg hk, lookupA]
        by_cases hk' : k = i'
        · simp [hk']
        · simp [if_neg hk', ih]

theorem lookupA_append_self {T : Type} :
    ∀ (d : List (Int × T)) (i : Int) (v : T),
      lookupA d i = none → lookupA (d ++ [(i, v)]) i = some v := by
  intro d i v h
  induction d with
  | nil => simp [lookupA]
  | cons kv rest ih =>
      obtain ⟨k, w⟩ := kv
      by_cases hk : k = i
      · subst hk; simp [lookupA] at h
      · simp only [lookupA, if_neg hk] at h
        simp only [List.cons_append, lookupA, if_neg hk]
        exact ih h

theorem lookupA_append_other {T : Type} :
    ∀ (d : List (Int × T)) (i i' : Int) (v : T), i' ≠ i →
      lookupA (d ++ [(i, v)]) i' = lookupA d i' := by
  intro d i i' v hne
  induction d with
  | nil => simp [lookupA, show ¬(i = i') from fun h => hne h.symm]
  | cons kv rest ih =>
      obtain ⟨k, w⟩ := kv
      by_cases hk : k = i'
      · simp [lookupA, hk]
      · simp only [List.cons_append, lookupA, if_neg hk]
        exact ih

theorem lookupA_eraseA_other {T : Type} :
    ∀ (d : List (Int × T)) (i i' : Int), i' ≠ i →
      lookupA (eraseA d i) i' = lookupA d i' := by
  intro d i i' hne
  induction d with
  | nil => rfl
  | cons kv rest ih =>
      obtain ⟨k, w⟩ := kv
      by_cases hk : k = i
      · subst hk
        simp [eraseA, lookupA, show ¬(k = i') from fun h => hne h.symm]
      · simp only [eraseA, if_neg hk, lookupA]
        by_cases hk' : k = i'
        · simp [hk']
        · simp [if_neg hk', ih]

theorem keys_eraseA {T : Type} :
    ∀ (d : List (Int × T)) (i : Int),
      (eraseA d i).map Prod.fst = (d.map Prod.fst).erase i := by
  intro d i
  induction d with
  | nil => rfl
  | cons kv rest ih =>
      obtain ⟨k, w⟩ := kv
      by_cases hk : k = i
      · subst hk; simp [eraseA, List.erase_cons_head]
      · simp only [eraseA, if_neg hk, List.map_cons]
        rw [List.erase_cons_tail, ih]
        simp [hk]

theorem keys_updateA {T : Type} :
    ∀ (d : List (Int × T)) (i : Int) (v : T),
      (updateA d i v).map Prod.fst = d.map Prod.fst := by
  intro d i v
  induction d with
  | nil => rfl
  | cons kv rest ih =>
      obtain ⟨k, w⟩ := kv
      by_cases hk : k = i
      · simp [updateA, hk]
      · simp [updateA, if_neg hk, ih]

theorem lookupA_isSome_iff_mem {T : Type} :
    ∀ (d : List (Int × T)) (i : Int),
      (lookupA d i).isSome ↔ i ∈ d.map Prod.fst := by
  intro d i
  induction d with
  | nil => simp [lookupA]
  | cons kv rest ih =>
      obtain ⟨k, w⟩ := kv
      by_cases hk : k = i
      · subst hk; simp [lookupA]
      · simp only [lookupA, if_neg hk, List.map_cons, List.mem_cons]
        rw [ih]
        constructor
        · exact Or.inr
        · rintro (h | h)
          · exact absurd h.symm hk
          · exact h

theorem lookupA_none_iff_not_mem {T : Type} (d : List (Int × T)) (i : Int) :
    lookupA d i = none ↔ i ∉ d.map Prod.fst := by
  rw [← Option.not_isSome_iff_eq_none, lookupA_isSome_iff_mem]

theorem lookupA_eraseA_self {T : Type} :
    ∀ (d : List (Int × T)) (i : Int), (d.map Prod.fst).Nodup →
      lookupA (eraseA d i) i = none := by
  intro d i hnd
  induction d with
  | nil => rfl
  | cons kv rest ih =>
      obtain ⟨k, w⟩ := kv
      simp only [List.map_cons, List.nodup_cons] at hnd
      by_cases hk : k = i
      · subst hk
        have he : eraseA ((k, w) :: rest) k = rest := by simp [eraseA]
        rw [he, lookupA_none_iff_not_mem]
        exact hnd.1
      · simp only [eraseA, if_neg hk, lookupA, if_neg hk]
        exact ih hnd.2

theorem store_lookup_self {T : Type} (st : IndexedStorage T) (i : Int) (v : T) :
    lookupA (st.store i v).data i = some v := by
  unfold IndexedStorage.store
  cases h : lookupA st.data i with
  | some w => exact lookupA_updateA_self _ _ _ (by simp [h])
  | none => exact lookupA_append_self _ _ _ h

theorem store_lookup_other {T : Type} (st : IndexedStorage T) (i i' : Int)
    (v : T) (hne : i' ≠ i) :
    lookupA (st.store i v).data i' = lookupA st.data i' := by
  unfold IndexedStorage.store
  cases h : lookupA st.data i with
  | some w => exact lookupA_updateA_other _ _ _ _ hne
  | none => exact lookupA_append_other _ _ _ _ hne

theorem store_indices_present {T : Type} (st : IndexedStorage T) (i : Int)
    (v : T) (h : (lookupA st.data i).isSome) :
    (st.store i v).indices = st.indices := by
  unfold IndexedStorage.store
  cases hl : lookupA st.data i with
  | some w => rfl
  | none => rw [hl] at h; simp at h

theorem store_data_length {T : Type} (st : IndexedStorage T) (i : Int)
    (v : T) (h : (lookupA st.data i).isSome) :
    (st.store i v).data.length = st.data.length := by
  unfold IndexedStorage.store
  cases hl : lookupA st.data i with
  | some w =>
      show (updateA st.data i v).length = _
      clear hl h
      induction st.data with
      | nil => rfl
      | cons kv rest ih =>
          obtain ⟨k, u⟩ := kv
          by_cases hk : k = i <;> simp [updateA, hk, ih]
  | none => rw [hl] at h; simp at h

theorem opIndexRead_present {T : Type} [Inhabited T] (st : IndexedStorage T)
    (i : Int) (v : T) (h : lookupA st.data i = some v) :
    st.opIndexRead i = (v, st) := by
  unfold IndexedStorage.opIndexRead
  rw [h]

theorem opIndexRead_absent {T : Type} [Inhabited T] (st : IndexedStorage T)
    (i : Int) (h : lookupA st.data i = none) :
    st.opIndexRead i =
      (default, ⟨st.data ++ [(i, default)], insertIdxSorted i st.indices⟩) := by
  unfold IndexedStorage.opIndexRead
  rw [h]

/-!
## Lemmas: `SheetStorage` pointwise behavior
-/

theorem count_eq_zero_iff {T : Type} (st : IndexedStorage T) (i : Int) :
    st.count i = 0 ↔ lookupA st.data i = none := by
  unfold IndexedStorage.count
  cases h : lookupA st.data i <;> simp

theorem get_eq_of_valid {T : Type} (st : SheetStorage T) (pos : Position)
    (hv : pos.IsValid = true) : st.get pos = .ok (gridAt st pos) := by
  simp only [SheetStorage.get, checkValid_ok hv]
  by_cases h0 : st.rows.count pos.row = 0
  · have hl : lookupA st.rows.data pos.row = none := (count_eq_zero_iff _ _).mp h0
    simp [h0, gridAt, hl]
  · have hl : ¬lookupA st.rows.data pos.row = none :=
      fun hh => h0 ((count_eq_zero_iff _ _).mpr hh)
    obtain ⟨rw, hrw⟩ := Option.ne_none_iff_exists'.mp hl
    simp only [if_neg h0, hrw]
    by_cases h1 : rw.count pos.col = 0
    · have hc := (count_eq_zero_iff _ _).mp h1
      simp [h1, gridAt, hrw, hc]
    · have hc : ¬lookupA rw.data pos.col = none :=
        fun hh => h1 ((count_eq_zero_iff _ _).mpr hh)
      obtain ⟨c, hcc⟩ := Option.ne_none_iff_exists'.mp hc
      simp [h1, gridAt, hrw, hcc]

theorem set_ok_of_valid {T : Type} (st : SheetStorage T) (pos : Position)
    (v : T) (hv : pos.IsValid = true) :
    st.set pos v =
      .ok ⟨(st.rows.opIndexRead pos.row).2.store pos.row
             ((st.rows.opIndexRead pos.row).1.store pos.col v)⟩ := by
  simp [SheetStorage.set, checkValid_ok hv]

theorem gridAt_set_self {T : Type} {st st' : SheetStorage T} {pos : Position}
    {v : T} (h : st.set pos v = .ok st') : gridAt st' pos = some v := by
  have hv : pos.IsValid = true := by
    by_contra hv
    have hv' : pos.IsValid = false := by simpa using hv
    simp [SheetStorage.set, checkValid_error hv'] at h
  rw [set_ok_of_valid st pos v hv] at h
  cases h
  unfold gridAt
  cases hl : lookupA st.rows.data pos.row with
  | some rw =>
      rw [opIndexRead_present _ _ _ hl]
      simp only
      rw [store_lookup_self]
      simp [store_lookup_self]
  | none =>
      rw [opIndexRead_absent _ _ hl]
      simp only
      rw [store_lookup_self]
      simp [store_lookup_self]

theorem gridAt_set_other {T : Type} {st st' : SheetStorage T} {pos : Position}
    {v : T} (h : st.set pos v = .ok st') (pos' : Position) (hne : pos' ≠ pos) :
    gridAt st' pos' = gridAt st pos' := by
  have hv : pos.IsValid = true := by
    by_contra hv
    have hv' : pos.IsValid = false := by simpa using hv
    simp [SheetStorage.set, checkValid_error hv'] at h
  rw [set_ok_of_valid st pos v hv] at h
  cases h
  unfold gridAt
  by_cases hr : pos'.row = pos.row
  · have hc : pos'.col ≠ pos.col := by
      intro hc
      exact hne (by cases pos; cases pos'; simp_all)
    cases hl : lookupA st.rows.data pos.row with
    | some rw =>
        rw [opIndexRead_present _ _ _ hl]
        simp only [hr]
        rw [store_lookup_self, hl]
        simp only [Option.some_bind]
        rw [store_lookup_other _ _ _ _ hc]
    | none =>
        rw [opIndexRead_absent _ _ hl]
        simp only [hr]
        rw [store_lookup_self, hl]
        simp only [Option.some_bind, Option.none_bind]
        rw [store_lookup_other _ _ _ _ hc]
        simp [IndexedStorage.emptyStorage, lookupA]
  · cases hl : lookupA st.rows.data pos.row with
    | some rw =>
        rw [opIndexRead_present _ _ _ hl]
        simp only
        rw [store_lookup_other _ _ _ _ hr]
    | none =>
        rw [opIndexRead_absent _ _ hl]
        simp only
        rw [store_lookup_other _ _ _ _ hr,
          lookupA_append_other _ _ _ _ hr]

/-!
## Lemmas: the dependency graph
-/

theorem lookupG_updateG_self :
    ∀ (g : RefsGraph) (q : Position) (l' : List Position),
      (lookupG g q).isSome → lookupG (updateG g q l') q = some l' := by
  intro g q l' h
  induction g with
  | nil => simp [lookupG] at h
  | cons kl rest ih =>
      obtain ⟨k, l⟩ := kl
      by_cases hk : k = q
      · subst hk; simp [lookupG, updateG]
      · simp only [lookupG, updateG, if_neg hk] at h ⊢
        exact ih h

theorem lookupG_updateG_other :
    ∀ (g : RefsGraph) (q q' : Position) (l' : List Position), q' ≠ q →
      lookupG (updateG g q l') q' = lookupG g q' := by
  intro g q q' l' hne
  induction g with
  | nil => rfl
  | cons kl rest ih =>
      obtain ⟨k, l⟩ := kl
      by_cases hk : k = q
      · subst hk
        simp [updateG, lookupG, show ¬(k = q') from fun h => hne h.symm]
      · simp only [updateG, if_neg hk, lookupG]
        by_cases hk' : k = q'
        · simp [hk']
        · simp [if_neg hk', ih]

theorem lookupG_append_self :
    ∀ (g : RefsGraph) (q : Position) (l : List Position),
      lookupG g q = none → lookupG (g ++ [(q, l)]) q = some l := by
  intro g q l h
  induction g with
  | nil => simp [lookupG]
  | cons kl rest ih =>
      obtain ⟨k, l0⟩ := kl
      by_cases hk : k = q
      · subst hk; simp [lookupG] at h
      · simp only [lookupG, if_neg hk] at h
        simp only [List.cons_append, lookupG, if_neg hk]
        exact ih h

theorem lookupG_append_other :
    ∀ (g : RefsGraph) (q q' : Position) (l : List Position), q' ≠ q →
      lookupG (g ++ [(q, l)]) q' = lookupG g q' := by
  intro g q q' l hne
  induction g with
  | nil => simp [lookupG, show ¬(q = q') from fun h => hne h.symm]
  | cons kl rest ih =>
      obtain ⟨k, l0⟩ := kl
      by_cases hk : k = q'
      · simp [lookupG, hk]
      · simp only [List.cons_append, lookupG, if_neg hk]
        exact ih

theorem lookupG_eraseG_other :
    ∀ (g : RefsGraph) (q q' : Position), q' ≠ q →
      lookupG (eraseG g q) q' = lookupG g q' := by
  intro g q q' hne
  induction g with
  | nil => rfl
  | cons kl rest ih =>
      obtain ⟨k, l⟩ := kl
      by_cases hk : k = q
      · subst hk
        simp [eraseG, lookupG, show ¬(k = q') from fun h => hne h.symm]
      · simp only [eraseG, if_neg hk, lookupG]
        by_cases hk' : k = q'
        · simp [hk']
        · simp [if_neg hk', ih]

theorem lookupG_isSome_iff_mem :
    ∀ (g : RefsGraph) (q : Position),
      (lookupG g q).isSome ↔ q ∈ g.map Prod.fst := by
  intro g q
  induction g with
  | nil => simp [lookupG]
  | cons kl rest ih =>
      obtain ⟨k, l⟩ := kl
      by_cases hk : k = q
      · subst hk; simp [lookupG]
      · simp only [lookupG, if_neg hk, List.map_cons, List.mem_cons]
        rw [ih]
        constructor
        · exact Or.inr
        · rintro (h | h)
          · exact absurd h.symm hk
          · exact h

theorem lookupG_none_iff_not_mem (g : RefsGraph) (q : Position) :
    lookupG g q = none ↔ q ∉ g.map Prod.fst := by
  rw [← Option.not_isSome_iff_eq_none, lookupG_isSome_iff_mem]

theorem keysG_eraseG :
    ∀ (g : RefsGraph) (q : Position),
      (eraseG g q).map Prod.fst = (g.map Prod.fst).erase q := by
  intro g q
  induction g with
  | nil => rfl
  | cons kl rest ih =>
      obtain ⟨k, l⟩ := kl
      by_cases hk : k = q
      · subst hk; simp [eraseG, List.erase_cons_head]
      · simp only [eraseG, if_neg hk, List.map_cons]
        rw [List.erase_cons_tail, ih]
        simp [hk]

theorem lookupG_eraseG_self :
    ∀ (g : RefsGraph) (q : Position), GraphKeysNodup g →
      lookupG (eraseG g q) q = none := by
  intro g q hnd
  rw [lookupG_none_iff_not_mem, keysG_eraseG]
  exact fun hmem => (List.Nodup.not_mem_erase hnd) hmem

theorem keysG_updateG :
    ∀ (g : RefsGraph) (q : Position) (l' : List Position),
      (updateG g q l').map Prod.fst = g.map Prod.fst := by
  intro g q l'
  induction g with
  | nil => rfl
  | cons kl rest ih =>
      obtain ⟨k, l⟩ := kl
      by_cases hk : k = q
      · simp [updateG, hk]
      · simp [updateG, if_neg hk, ih]

/-- `adjG` after adding one edge. -/
theorem adjG_graphAdd (g : RefsGraph) (q pos q' : Position) :
    adjG (graphAdd g q pos) q' =
      if q' = q then insertP pos (adjG g q) else adjG g q' := by
  unfold graphAdd
  cases hl : lookupG g q with
  | some l =>
      by_cases hq : q' = q
      · subst hq
        unfold adjG
        rw [lookupG_updateG_self _ _ _ (by simp [hl]), hl]
        simp
      · unfold adjG
        rw [lookupG_updateG_other _ _ _ _ hq, if_neg hq]
  | none =>
      by_cases hq : q' = q
      · subst hq
        unfold adjG
        rw [lookupG_append_self _ _ _ hl, hl]
        simp
      · unfold adjG
        rw [lookupG_append_other _ _ _ _ hq, if_neg hq]

/-- `adjG` after removing one edge, away from the removed key. -/
theorem adjG_graphRemove_other (g : RefsGraph) (q pos q' : Position)
    (hq : q' ≠ q) : adjG (graphRemove g q pos) q' = adjG g q' := by
  unfold graphRemove
  cases hl : lookupG g q with
  | none => rfl
  | some l =>
      dsimp only
      by_cases he : (l.erase pos).isEmpty
      · rw [if_pos he]
        unfold adjG
        rw [lookupG_eraseG_other _ _ _ hq]
      · simp only [he]
        unfold adjG
        rw [if_neg (by simp [he]), lookupG_updateG_other _ _ _ _ hq]

/-- `adjG` after removing one edge, at the removed key (distinct map keys
needed: erasing the key must not uncover another binding). -/
theorem adjG_graphRemove_self (g : RefsGraph) (q pos : Position)
    (hnd : GraphKeysNodup g) :
    adjG (graphRemove g q pos) q = (adjG g q).erase pos := by
  unfold graphRemove
  cases hl : lookupG g q with
  | none => unfold adjG; rw [hl]; rfl
  | some l =>
      dsimp only
      by_cases he : (l.erase pos).isEmpty
      · rw [if_pos he]
        unfold adjG
        rw [lookupG_eraseG_self _ _ hnd, hl]
        simp only [Option.getD_none, Option.getD_some]
        exact (List.isEmpty_iff.mp he).symm
      · rw [if_neg (by simp [he])]
        unfold adjG
        rw [lookupG_updateG_self _ _ _ (by simp [hl]), hl]
        simp

theorem keysG_graphRemove_nodup (g : RefsGraph) (q pos : Position)
    (hnd : GraphKeysNodup g) : GraphKeysNodup (graphRemove g q pos) := by
  unfold graphRemove
  cases hl : lookupG g q with
  | none => exact hnd
  | some l =>
      dsimp only
      by_cases he : (l.erase pos).isEmpty
      · rw [if_pos he]
        unfold GraphKeysNodup
        rw [keysG_eraseG]
        exact hnd.erase q
      · rw [if_neg (by simp [he])]
        unfold GraphKeysNodup
        rw [keysG_updateG]
        exact hnd

theorem mem_insertP (x p : Position) (l : List Position) :
    x ∈ insertP p l ↔ x = p ∨ x ∈ l := by
  unfold insertP
  by_cases h : l.contains p
  · rw [if_pos h]
    constructor
    · exact Or.inr
    · rintro (rfl | hx)
      · exact List.elem_iff.mp h
      · exact hx
  · rw [if_neg h]
    simp [or_comm]

theorem insertP_idem (p : Position) (l : List Position) :
    insertP p (insertP p l) = insertP p l := by
  have h1 : (insertP p l).contains p := by
    rw [List.elem_iff, mem_insertP]
    exact Or.inl rfl
  rw [insertP]
  rw [if_pos h1]

theorem insertP_nodup (p : Position) (l : List Position) (h : l.Nodup) :
    (insertP p l).Nodup := by
  unfold insertP
  by_cases hc : l.contains p
  · rw [if_pos hc]; exact h
  · rw [if_neg hc]
    rw [List.nodup_append]
    refine ⟨h, List.nodup_singleton p, ?_⟩
    intro a ha hmem
    simp only [List.mem_singleton] at hmem
    subst hmem
    exact hc (List.elem_iff.mpr ha)

theorem insertP_ne_nil (p : Position) (l : List Position) :
    insertP p l ≠ [] := by
  unfold insertP
  by_cases hc : l.contains p
  · rw [if_pos hc]
    intro h
    subst h
    simp [List.elem_iff] at hc
  · rw [if_neg hc]
    simp

/-- Membership after the edge-adding fold of `commitRefs`. -/
theorem adjG_addFold (ra : List Position) :
    ∀ (g : RefsGraph) (pos q : Position),
      adjG (ra.foldl (fun acc r => graphAdd acc r pos) g) q =
        if q ∈ ra then insertP pos (adjG g q) else adjG g q := by
  induction ra with
  | nil => intro g pos q; simp
  | cons x rest ih =>
      intro g pos q
      simp only [List.foldl_cons]
      rw [ih]
      by_cases hq : q ∈ rest
      · rw [if_pos hq, if_pos (List.mem_cons_of_mem _ hq), adjG_graphAdd]
        by_cases hx : q = x
        · subst hx
          rw [if_pos rfl, insertP_idem]
        · rw [if_neg hx]
      · rw [if_neg hq, adjG_graphAdd]
        by_cases hx : q = x
        · subst hx
          rw [if_pos rfl, if_pos (List.mem_cons_self q rest)]
        · rw [if_neg hx, if_neg (by simp [hx, hq])]

theorem keysG_graphAdd_nodup (g : RefsGraph) (q pos : Position)
    (hnd : GraphKeysNodup g) : GraphKeysNodup (graphAdd g q pos) := by
  unfold graphAdd
  cases hl : lookupG g q with
  | some l =>
      unfold GraphKeysNodup
      rw [keysG_updateG]
      exact hnd
  | none =>
      unfold GraphKeysNodup
      rw [List.map_append]
      simp only [List.map_cons, List.map_nil]
      rw [List.nodup_append]
      refine ⟨hnd, List.nodup_singleton q, ?_⟩
      intro a ha hmem
      simp only [List.mem_singleton] at hmem
      subst hmem
      exact (lookupG_none_iff_not_mem g a).mp hl ha

theorem adjNodup_graphAdd (g : RefsGraph) (q pos : Position)
    (h : ∀ q', (adjG g q').Nodup) : ∀ q', (adjG (graphAdd g q pos) q').Nodup := by
  intro q'
  rw [adjG_graphAdd]
  by_cases hq : q' = q
  · rw [if_pos hq]; exact insertP_nodup _ _ (h q)
  · rw [if_neg hq]; exact h q'

theorem keysG_addFold_nodup (ra : List Position) :
    ∀ (g : RefsGraph) (pos : Position), GraphKeysNodup g →
      GraphKeysNodup (ra.foldl (fun acc r => graphAdd acc r pos) g) := by
  induction ra with
  | nil => intro g pos h; exact h
  | cons x rest ih =>
      intro g pos h
      exact ih _ _ (keysG_graphAdd_nodup _ _ _ h)

theorem adjNodup_addFold (ra : List Position) :
    ∀ (g : RefsGraph) (pos : Position), (∀ q', (adjG g q').Nodup) →
      ∀ q', (adjG (ra.foldl (fun acc r => graphAdd acc r pos) g) q').Nodup := by
  induction ra with
  | nil => intro g pos h; exact h
  | cons x rest ih =>
      intro g pos h
      exact ih _ _ (adjNodup_graphAdd _ _ _ h)

theorem adjNodup_graphRemove (g : RefsGraph) (q pos : Position)
    (hk : GraphKeysNodup g) (h : ∀ q', (adjG g q').Nodup) :
    ∀ q', (adjG (graphRemove g q pos) q').Nodup := by
  intro q'
  by_cases hq : q' = q
  · subst hq
    rw [adjG_graphRemove_self _ _ _ hk]
    exact (h q').erase pos
  · rw [adjG_graphRemove_other _ _ _ _ hq]
    exact h q'

/-- Membership (for a referrer distinct from `pos`) is untouched by the
edge-removing fold of `commitRefs`. -/
theorem mem_adjG_removeFold_ne (rd : List Position) :
    ∀ (g : RefsGraph) (pos q r : Position), GraphKeysNodup g → r ≠ pos →
      (r ∈ adjG (rd.foldl (fun acc x => graphRemove acc x pos) g) q ↔
        r ∈ adjG g q) := by
  induction rd with
  | nil => intro g pos q r _ _; simp
  | cons x rest ih =>
      intro g pos q r hk hr
      simp only [List.foldl_cons]
      rw [ih _ _ _ _ (keysG_graphRemove_nodup _ _ _ hk) hr]
      by_cases hq : q = x
      · subst hq
        rw [adjG_graphRemove_self _ _ _ hk]
        exact List.mem_erase_of_ne hr
      · rw [adjG_graphRemove_other _ _ _ _ hq]

/-- Membership of `pos` itself after the edge-removing fold: removed
exactly at the keys of `refs_del`. -/
theorem pos_mem_adjG_removeFold (rd : List Position) :
    ∀ (g : RefsGraph) (pos q : Position), GraphKeysNodup g →
      (∀ q', (adjG g q').Nodup) →
      (pos ∈ adjG (rd.foldl (fun acc x => graphRemove acc x pos) g) q ↔
        pos ∈ adjG g q ∧ q ∉ rd) := by
  induction rd with
  | nil => intro g pos q _ _; simp
  | cons x rest ih =>
      intro g pos q hk ha
      simp only [List.foldl_cons]
      rw [ih _ _ _ (keysG_graphRemove_nodup _ _ _ hk)
        (adjNodup_graphRemove _ _ _ hk ha)]
      by_cases hq : q = x
      · subst hq
        rw [adjG_graphRemove_self _ _ _ hk]
        constructor
        · rintro ⟨hmem, -⟩
          exact absurd ((List.Nodup.mem_erase_iff (ha q)).mp hmem).1 (by simp)
        · rintro ⟨-, habs⟩
          exact absurd (List.mem_cons_self q rest) habs
      · rw [adjG_graphRemove_other _ _ _ _ hq]
        constructor
        · rintro ⟨hmem, hq'⟩
          exact ⟨hmem, by simp [hq, hq']⟩
        · rintro ⟨hmem, hq'⟩
          simp only [List.mem_cons, not_or] at hq'
          exact ⟨hmem, hq'.2⟩

/-!
## Lemmas: cache invalidation and the placeholder loop
-/

theorem get_ok_classify {T : Type} {st : SheetStorage T} {pos : Position}
    {r : Option T} (h : st.get pos = .ok r) :
    pos.IsValid = true ∧ gridAt st pos = r := by
  by_cases hv : pos.IsValid
  · rw [get_eq_of_valid st pos hv] at h
    cases h
    exact ⟨hv, rfl⟩
  · have hv' : pos.IsValid = false := by simpa using hv
    simp [SheetStorage.get, checkValid_error hv'] at h

theorem contentAt_clearCacheAt (cells : SheetStorage Cell) (v x : Position) :
    contentAt (clearCacheAt cells v) x = contentAt cells x := by
  unfold clearCacheAt
  cases hg : cells.get v with
  | error e => rfl
  | ok r =>
      cases r with
      | none => rfl
      | some c =>
          dsimp only
          cases hs : cells.set v (Cell.invalidateCache c) with
          | error e => rfl
          | ok cells' =>
              obtain ⟨hv, hga⟩ := get_ok_classify hg
              by_cases hx : x = v
              · subst hx
                unfold contentAt
                rw [gridAt_set_self hs, hga]
                rfl
              · unfold contentAt
                rw [gridAt_set_other hs x hx]

theorem contentAt_invalidateLoop (g : RefsGraph) :
    ∀ (fuel : Nat) (queue discovered : List Position)
      (cells : SheetStorage Cell) (x : Position),
      contentAt (invalidateLoop g fuel queue discovered cells).1 x =
        contentAt cells x := by
  intro fuel
  induction fuel with
  | zero => intro queue disc cells x; rfl
  | succ n ih =>
      intro queue disc cells x
      cases queue with
      | nil => rfl
      | cons v rest =>
          simp only [invalidateLoop]
          rw [ih, contentAt_clearCacheAt]

theorem contentAt_invalidateCache (s : Sheet) (pos x : Position) :
    contentAt (s.invalidateCache pos).cells x = contentAt s.cells x := by
  unfold Sheet.invalidateCache
  exact contentAt_invalidateLoop _ _ _ _ _ _

theorem refs_invalidateCache (s : Sheet) (pos : Position) :
    (s.invalidateCache pos).refs_from = s.refs_from := rfl

theorem refs_setEmptyAt (s : Sheet) (r : Position) :
    (s.setEmptyAt r).refs_from = s.refs_from := by
  unfold Sheet.setEmptyAt
  cases h : s.cells.set r ⟨.empty, none⟩ with
  | ok cells' => rfl
  | error e => rfl

theorem contentAt_setEmptyAt_self {s : Sheet} {r : Position}
    (hv : r.IsValid = true) :
    contentAt (s.setEmptyAt r).cells r = some .empty := by
  unfold Sheet.setEmptyAt
  rw [set_ok_of_valid _ _ _ hv]
  rw [contentAt_invalidateCache]
  unfold contentAt
  rw [gridAt_set_self (set_ok_of_valid s.cells r ⟨.empty, none⟩ hv)]
  rfl

theorem contentAt_setEmptyAt_other (s : Sheet) (r x : Position)
    (hx : x ≠ r) :
    contentAt (s.setEmptyAt r).cells x = contentAt s.cells x := by
  unfold Sheet.setEmptyAt
  cases h : s.cells.set r ⟨.empty, none⟩ with
  | error e => rfl
  | ok cells' =>
      rw [contentAt_invalidateCache]
      unfold contentAt
      rw [gridAt_set_other h x hx]

theorem refs_placeholderLoop :
    ∀ (refs : List Position) (s : Sheet),
      (s.placeholderLoop refs).1.refs_from = s.refs_from := by
  intro refs
  induction refs with
  | nil => intro s; rfl
  | cons r rest ih =>
      intro s
      simp only [Sheet.placeholderLoop]
      split
      · rfl
      · exact ih s
      · rw [ih, refs_setEmptyAt]

/-- Each position is either untouched by the placeholder loop or was
absent, is one of the new references, and got an `Empty` cell. -/
theorem contentAt_placeholderLoop :
    ∀ (refs : List Position) (s : Sheet) (x : Position),
      contentAt (s.placeholderLoop refs).1.cells x = contentAt s.cells x ∨
      (contentAt s.cells x = none ∧ x ∈ refs ∧
        contentAt (s.placeholderLoop refs).1.cells x = some .empty) := by
  intro refs
  induction refs with
  | nil => intro s x; exact Or.inl rfl
  | cons r rest ih =>
      intro s x
      simp only [Sheet.placeholderLoop]
      split
      · exact Or.inl rfl
      · rcases ih s x with h | ⟨h1, h2, h3⟩
        · exact Or.inl h
        · exact Or.inr ⟨h1, List.mem_cons_of_mem _ h2, h3⟩
      · rename_i hget
        obtain ⟨hv, hga⟩ := get_ok_classify hget
        by_cases hx : x = r
        · subst hx
          rcases ih (s.setEmptyAt x) x with h | ⟨h1, h2, h3⟩
          · rw [contentAt_setEmptyAt_self hv] at h
            refine Or.inr ⟨?_, List.mem_cons_self x rest, h⟩
            unfold contentAt
            rw [hga]
            rfl
          · rw [contentAt_setEmptyAt_self hv] at h1
            cases h1
        · rcases ih (s.setEmptyAt r) x with h | ⟨h1, h2, h3⟩
          · rw [contentAt_setEmptyAt_other s r x hx] at h
            exact Or.inl h
          · rw [contentAt_setEmptyAt_other s r x hx] at h1
            exact Or.inr ⟨h1, List.mem_cons_of_mem _ h2, h3⟩

/-- A successful placeholder loop leaves a cell behind at every processed
reference, and every processed reference is a valid position. -/
theorem placeholderLoop_post :
    ∀ (refs : List Position) (s s2 : Sheet),
      s.placeholderLoop refs = (s2, none) →
      ∀ r ∈ refs, r.IsValid = true ∧ contentAt s2.cells r ≠ none := by
  intro refs
  induction refs with
  | nil => intro s s2 _ r hr; cases hr
  | cons x rest ih =>
      intro s s2 h r hr
      simp only [Sheet.placeholderLoop] at h
      split at h
      · cases h
      · rename_i c hget
        obtain ⟨hv, hga⟩ := get_ok_classify hget
        rcases List.mem_cons.mp hr with rfl | hr'
        · refine ⟨hv, ?_⟩
          rcases contentAt_placeholderLoop rest s r with hh | ⟨hh1, -, -⟩
          · rw [(by rw [h] : (s.placeholderLoop rest).1 = s2)] at hh
            rw [hh]
            unfold contentAt
            rw [hga]
            simp
          · unfold contentAt at hh1
            rw [hga] at hh1
            simp at hh1
        · exact ih _ _ h r hr'
      · rename_i hget
        obtain ⟨hv, hga⟩ := get_ok_classify hget
        rcases List.mem_cons.mp hr with rfl | hr'
        · refine ⟨hv, ?_⟩
          rcases contentAt_placeholderLoop rest (s.setEmptyAt r) r with hh | ⟨hh1, -, -⟩
          · rw [(by rw [h] : ((s.setEmptyAt r).placeholderLoop rest).1 = s2)] at hh
            rw [hh, contentAt_setEmptyAt_self hv]
            simp
          · rw [contentAt_setEmptyAt_self hv] at hh1
            cases hh1
        · exact ih _ _ h r hr'

/-- When every reference already has a cell, the placeholder loop is a
no-op. -/
theorem placeholderLoop_all_present :
    ∀ (refs : List Position) (s : Sheet),
      (∀ r ∈ refs, r.IsValid = true ∧ contentAt s.cells r ≠ none) →
      s.placeholderLoop refs = (s, none) := by
  intro refs
  induction refs with
  | nil => intro s _; rfl
  | cons x rest ih =>
      intro s h
      obtain ⟨hv, hc⟩ := h x (List.mem_cons_self x rest)
      simp only [Sheet.placeholderLoop, Sheet.getCell]
      rw [get_eq_of_valid _ _ hv]
      cases hg : gridAt s.cells x with
      | none =>
          exfalso
          apply hc
          unfold contentAt
          rw [hg]
          rfl
      | some c =>
          exact ih s (fun r hr => h r (List.mem_cons_of_mem _ hr))

/-!
## Lemmas: `UpdateRefs` and the `SetCell` success path
-/

theorem updateRefs_ok {g g' : RefsGraph} {pos : Position}
    {old_refs new_refs : List Position}
    (h : updateRefs g pos old_refs new_refs = .ok g') :
    g' = commitRefs g pos (refsAdd old_refs new_refs)
           (refsDel old_refs new_refs) := by
  unfold updateRefs at h
  dsimp only at h
  split at h
  · cases h
  · cases h; rfl

theorem updateRefs_error {g : RefsGraph} {pos : Position}
    {old_refs new_refs : List Position} {e : SheetError}
    (h : updateRefs g pos old_refs new_refs = .error e) :
    e = .circularDependency := by
  unfold updateRefs at h
  dsimp only at h
  split at h
  · cases h; rfl
  · cases h

/-- Decomposition of a successful `SetCell` into the effects of its
steps. -/
theorem setCell_ok_decompose {s s' : Sheet} {pos : Position} {text : String}
    (h : s.setCell pos text = (s', none)) :
    ∃ (cell : Cell) (oldCell : Option Cell) (g' : RefsGraph) (s2 : Sheet)
      (cells' : SheetStorage Cell),
      Cell.set text = .ok cell ∧
      s.getCell pos = .ok oldCell ∧
      updateRefs s.refs_from pos (oldRefsOf oldCell)
        cell.getReferencedCells = .ok g' ∧
      Sheet.placeholderLoop ⟨s.cells, g'⟩ cell.getReferencedCells =
        (s2, none) ∧
      s2.cells.set pos cell = .ok cells' ∧
      s' = Sheet.invalidateCache ⟨cells', s2.refs_from⟩ pos := by
  unfold Sheet.setCell at h
  split at h
  · cases h
  · rename_i cell hcell
    split at h
    · cases h
    · rename_i oldCell hget
      dsimp only at h
      split at h
      · cases h
      · rename_i g' hupd
        split at h
        · cases h
        · rename_i s2 hloop
          split at h
          · cases h
          · rename_i cells' hset
            cases h
            exact ⟨cell, oldCell, g', s2, cells', hcell, hget, hupd, hloop,
              hset, rfl⟩

/-- C10: a successful `SetCell(p, t)` replaces the cell at `p` with the
candidate built from `t`; every other position either keeps its cell
content unchanged or — when it previously held no cell and is referenced
by the new formula — receives an `Empty` placeholder; and for every
`q` and every `r ≠ p`, membership of `r` in `refs_from[q]` is unchanged
(the graph diff only adds or removes edges whose referrer end is `p`).
The cache of a cell is logically-mutable state, not content, and the map
keys of `refs_from` are pairwise distinct as in any `unordered_map`. -/
theorem setCell_frame (s s' : Sheet) (pos : Position) (text : String)
    (hk : GraphKeysNodup s.refs_from)
    (h : s.setCell pos text = (s', none)) :
    (∃ c : Cell, Cell.set text = .ok c ∧
      contentAt s'.cells pos = some c.content ∧
      ∀ x : Position, x ≠ pos →
        contentAt s'.cells x = contentAt s.cells x ∨
        (contentAt s.cells x = none ∧ x ∈ c.getReferencedCells ∧
          contentAt s'.cells x = some CellContent.empty)) ∧
    (∀ q r : Position, r ≠ pos →
      (r ∈ adjG s'.refs_from q ↔ r ∈ adjG s.refs_from q)) := by
  obtain ⟨cell, oldCell, g', s2, cells', hcell, hget, hupd, hloop, hset,
    hfin⟩ := setCell_ok_decompose h
  have hs2refs : s2.refs_from = g' := by
    have := refs_placeholderLoop cell.getReferencedCells ⟨s.cells, g'⟩
    rw [hloop] at this
    exact this
  constructor
  · refine ⟨cell, hcell, ?_, ?_⟩
    · rw [hfin, contentAt_invalidateCache]
      unfold contentAt
      rw [gridAt_set_self hset]
      rfl
    · intro x hx
      rw [hfin, contentAt_invalidateCache]
      unfold contentAt
      rw [gridAt_set_other hset x hx]
      have hpl := contentAt_placeholderLoop cell.getReferencedCells
        ⟨s.cells, g'⟩ x
      rw [hloop] at hpl
      exact hpl
  · intro q r hr
    rw [hfin, refs_invalidateCache]
    show r ∈ adjG s2.refs_from q ↔ _
    rw [hs2refs, updateRefs_ok hupd]
    unfold commitRefs
    rw [mem_adjG_removeFold_ne _ _ _ _ _
      (keysG_addFold_nodup _ _ _ hk) hr]
    rw [adjG_addFold]
    by_cases hq : q ∈ refsAdd (oldRefsOf oldCell) cell.getReferencedCells
    · rw [if_pos hq, mem_insertP]
      constructor
      · rintro (rfl | hmem)
        · exact absurd rfl hr
        · exact hmem
      · exact Or.inr
    · rw [if_neg hq]

/-- Witness for C10: `SetCell(A1, "=B1")` on a fresh sheet. -/
theorem setCell_frame_witness :
    GraphKeysNodup emptySheet.refs_from ∧
    ((∃ c : Cell, Cell.set "=B1" = .ok c ∧
      contentAt (emptySheet.setCell ⟨0, 0⟩ "=B1").1.cells ⟨0, 0⟩ =
        some c.content ∧
      ∀ x : Position, x ≠ ⟨0, 0⟩ →
        contentAt (emptySheet.setCell ⟨0, 0⟩ "=B1").1.cells x =
          contentAt emptySheet.cells x ∨
        (contentAt emptySheet.cells x = none ∧ x ∈ c.getReferencedCells ∧
          contentAt (emptySheet.setCell ⟨0, 0⟩ "=B1").1.cells x =
            some CellContent.empty)) ∧
    (∀ q r : Position, r ≠ ⟨0, 0⟩ →
      (r ∈ adjG (emptySheet.setCell ⟨0, 0⟩ "=B1").1.refs_from q ↔
        r ∈ adjG emptySheet.refs_from q))) :=
  ⟨List.Pairwise.nil, setCell_frame emptySheet
    (emptySheet.setCell ⟨0, 0⟩ "=B1").1 ⟨0, 0⟩ "=B1" List.Pairwise.nil
    (by decide)⟩

/-!
## Lemmas: printable size preservation under in-place writes
-/

theorem updateA_isEmpty {T : Type} :
    ∀ (d : List (Int × T)) (i : Int) (v : T),
      (updateA d i v).isEmpty = d.isEmpty := by
  intro d i v
  cases d with
  | nil => rfl
  | cons kv rest =>
      obtain ⟨k, w⟩ := kv
      by_cases hk : k = i <;> simp [updateA, hk]

/-- The column fold of `GetPrintableSize` only looks at emptiness and the
maximal index of each row, so storages that agree on those agree on the
fold. -/
theorem printable_cols_congr {T : Type} :
    ∀ (idx : List Int) (d1 d2 : List (Int × IndexedStorage T)),
      (∀ i ∈ idx,
        (lookupA d1 i).map (fun rw => (rw.isEmpty, rw.backIndex)) =
        (lookupA d2 i).map (fun rw => (rw.isEmpty, rw.backIndex))) →
      ∀ acc : Int,
        ((idx.map (fun i => (i, lookupA d1 i))).foldl
          (fun acc entry =>
            match entry.2 with
            | some rw => if !rw.isEmpty then max acc (rw.backIndex + 1) else acc
            | none => acc) acc) =
        ((idx.map (fun i => (i, lookupA d2 i))).foldl
          (fun acc entry =>
            match entry.2 with
            | some rw => if !rw.isEmpty then max acc (rw.backIndex + 1) else acc
            | none => acc) acc) := by
  intro idx
  induction idx with
  | nil => intro d1 d2 _ acc; rfl
  | cons i rest ih =>
      intro d1 d2 hpt acc
      simp only [List.map_cons, List.foldl_cons]
      have hi := hpt i (List.mem_cons_self i rest)
      have hrest := fun j hj => hpt j (List.mem_cons_of_mem _ hj)
      cases h1 : lookupA d1 i with
      | none =>
          cases h2 : lookupA d2 i with
          | none => exact ih d1 d2 hrest acc
          | some rw2 => rw [h1, h2] at hi; cases hi
      | some rw1 =>
          cases h2 : lookupA d2 i with
          | none => rw [h1, h2] at hi; cases hi
          | some rw2 =>
              rw [h1, h2] at hi
              simp only [Option.map_some'] at hi
              have hiE : rw1.isEmpty = rw2.isEmpty := by
                have := congrArg Prod.fst (Option.some.inj hi)
                simpa using this
              have hiB : rw1.backIndex = rw2.backIndex := by
                have := congrArg Prod.snd (Option.some.inj hi)
                simpa using this
              simp only [hiE, hiB]
              exact ih d1 d2 hrest _

/-- Overwriting a position that already holds a value does not change the
printable size. -/
theorem printableSize_set_present {T : Type} {st st' : SheetStorage T}
    {pos : Position} {v : T} (hpres : (gridAt st pos).isSome)
    (h : st.set pos v = .ok st') :
    st'.printableSize = st.printableSize := by
  have hv : pos.IsValid = true := by
    by_contra hv
    have hv' : pos.IsValid = false := by simpa using hv
    simp [SheetStorage.set, checkValid_error hv'] at h
  unfold gridAt at hpres
  cases hrw : lookupA st.rows.data pos.row with
  | none => rw [hrw] at hpres; simp at hpres
  | some rw =>
      rw [hrw] at hpres
      simp only [Option.some_bind] at hpres
      cases hcol : lookupA rw.data pos.col with
      | none => rw [hcol] at hpres; simp at hpres
      | some c0 =>
          rw [set_ok_of_valid _ _ _ hv] at h
          cases h
          rw [opIndexRead_present _ _ _ hrw]
          dsimp only
          unfold SheetStorage.printableSize
          have hind : (st.rows.store pos.row (rw.store pos.col v)).indices =
              st.rows.indices :=
            store_indices_present _ _ _ (by simp [hrw])
          have hemp : (st.rows.store pos.row (rw.store pos.col v)).isEmpty =
              st.rows.isEmpty := by
            unfold IndexedStorage.store
            rw [hrw]
            show (updateA st.rows.data pos.row _).isEmpty = _
            exact updateA_isEmpty _ _ _
          rw [hemp]
          have hback : (st.rows.store pos.row (rw.store pos.col v)).backIndex =
              st.rows.backIndex := by
            unfold IndexedStorage.backIndex
            rw [hind]
          rw [hback]
          have hfold :
              ((st.rows.store pos.row (rw.store pos.col v)).entries.foldl
                (fun acc entry =>
                  match entry.2 with
                  | some rw => if !rw.isEmpty then max acc (rw.backIndex + 1)
                      else acc
                  | none => acc) 0) =
              (st.rows.entries.foldl
                (fun acc entry =>
                  match entry.2 with
                  | some rw => if !rw.isEmpty then max acc (rw.backIndex + 1)
                      else acc
                  | none => acc) 0) := by
            unfold IndexedStorage.entries
            rw [hind]
            apply printable_cols_congr
            intro i _
            by_cases hi : i = pos.row
            · subst hi
              rw [store_lookup_self, hrw]
              simp only [Option.map_some']
              have h1 : (rw.store pos.col v).isEmpty = rw.isEmpty := by
                unfold IndexedStorage.store
                rw [hcol]
                show (updateA rw.data pos.col v).isEmpty = _
                exact updateA_isEmpty _ _ _
              have h2 : (rw.store pos.col v).backIndex = rw.backIndex := by
                unfold IndexedStorage.backIndex
                rw [store_indices_present _ _ _ (by simp [hcol])]
              rw [h1, h2]
            · rw [store_lookup_other _ _ _ _ hi]
          rw [hfold]

theorem printableSize_clearCacheAt (cells : SheetStorage Cell)
    (v : Position) :
    (clearCacheAt cells v).printableSize = cells.printableSize := by
  unfold clearCacheAt
  cases hg : cells.get v with
  | error e => rfl
  | ok r =>
      cases r with
      | none => rfl
      | some c =>
          dsimp only
          cases hs : cells.set v (Cell.invalidateCache c) with
          | error e => rfl
          | ok cells' =>
              obtain ⟨hv, hga⟩ := get_ok_classify hg
              exact printableSize_set_present (by simp [hga]) hs

theorem printableSize_invalidateLoop (g : RefsGraph) :
    ∀ (fuel : Nat) (queue discovered : List Position)
      (cells : SheetStorage Cell),
      (invalidateLoop g fuel queue discovered cells).1.printableSize =
        cells.printableSize := by
  intro fuel
  induction fuel with
  | zero => intro queue disc cells; rfl
  | succ n ih =>
      intro queue disc cells
      cases queue with
      | nil => rfl
      | cons v rest =>
          simp only [invalidateLoop]
          rw [ih, printableSize_clearCacheAt]

theorem printableSize_invalidateCache (s : Sheet) (pos : Position) :
    (s.invalidateCache pos).cells.printableSize = s.cells.printableSize := by
  unfold Sheet.invalidateCache
  exact printableSize_invalidateLoop _ _ _ _ _

/-!
## C9: idempotence of repeated identical writes
-/

theorem refsAdd_self_nil (refs : List Position) : refsAdd refs refs = [] := by
  unfold refsAdd
  rw [List.filter_eq_nil_iff]
  intro a ha
  have hc : refs.contains a = true := List.elem_iff.mpr ha
  simpa using ha

theorem refsDel_self_nil (refs : List Position) : refsDel refs refs = [] := by
  unfold refsDel
  rw [List.filter_eq_nil_iff]
  intro a ha
  have hc : refs.contains a = true := List.elem_iff.mpr ha
  simpa using ha

/-- With identical old and new references, `UpdateRefs` succeeds and the
graph is untouched. -/
theorem updateRefs_self (g : RefsGraph) (pos : Position)
    (refs : List Position) : updateRefs g pos refs refs = .ok g := by
  unfold updateRefs
  rw [refsAdd_self_nil, refsDel_self_nil]
  rfl

theorem getReferencedCells_of_content {c1 c2 : Cell}
    (h : c1.content = c2.content) :
    c1.getReferencedCells = c2.getReferencedCells := by
  unfold Cell.getReferencedCells
  rw [h]

/-- C9: when `SetCell(p, t)` succeeds, running `SetCell(p, t)` again
succeeds, and leaves the dependency graph and the printable size exactly
as they were after the first call: the second candidate carries the same
references as the now-stored cell, so `refs_add` and `refs_del` are both
empty, the cycle check is vacuous, the graph diff is empty, all
referenced cells already exist (no placeholder is created), and the cell
overwrite hits an occupied grid slot. -/
theorem setCell_idempotent (s s' : Sheet) (pos : Position) (text : String)
    (h : s.setCell pos text = (s', none)) :
    (s'.setCell pos text).2 = none ∧
    (s'.setCell pos text).1.refs_from = s'.refs_from ∧
    (s'.setCell pos text).1.cells.printableSize = s'.cells.printableSize := by
  obtain ⟨cell, oldCell, g1, s2, cells1, hcell, hget1, hupd1, hloop1, hset1,
    hfin1⟩ := setCell_ok_decompose h
  have hvalid : pos.IsValid = true := (get_ok_classify hget1).1
  -- the cell stored by the first call has the candidate's content
  have hcontent : contentAt s'.cells pos = some cell.content := by
    rw [hfin1, contentAt_invalidateCache]
    unfold contentAt
    rw [gridAt_set_self hset1]
    rfl
  obtain ⟨sc, hsc, hscc⟩ := Option.map_eq_some'.mp hcontent
  -- every referenced position still holds a cell after the first call
  have hpres : ∀ r ∈ cell.getReferencedCells,
      r.IsValid = true ∧ contentAt s'.cells r ≠ none := by
    intro r hr
    obtain ⟨hv, hne⟩ := placeholderLoop_post _ _ _ hloop1 r hr
    refine ⟨hv, ?_⟩
    rw [hfin1, contentAt_invalidateCache]
    by_cases hx : r = pos
    · subst hx
      unfold contentAt
      rw [gridAt_set_self hset1]
      simp
    · unfold contentAt
      rw [gridAt_set_other hset1 r hx]
      exact hne
  have hrefs_eq : sc.getReferencedCells = cell.getReferencedCells :=
    getReferencedCells_of_content hscc
  -- the second call, step by step
  have hget2 : s'.getCell pos = .ok (some sc) := by
    show s'.cells.get pos = _
    rw [get_eq_of_valid _ _ hvalid, hsc]
  have hset2 := set_ok_of_valid s'.cells pos cell hvalid
  have hrun : s'.setCell pos text =
      (Sheet.invalidateCache
        ⟨⟨(s'.cells.rows.opIndexRead pos.row).2.store pos.row
            ((s'.cells.rows.opIndexRead pos.row).1.store pos.col cell)⟩,
          s'.refs_from⟩ pos, none) := by
    unfold Sheet.setCell
    rw [hcell, hget2]
    dsimp only
    simp only [oldRefsOf]
    rw [hrefs_eq, updateRefs_self]
    dsimp only
    have hloop2 : Sheet.placeholderLoop ⟨s'.cells, s'.refs_from⟩
        cell.getReferencedCells = (⟨s'.cells, s'.refs_from⟩, none) :=
      placeholderLoop_all_present _ _ (fun r hr => hpres r hr)
    rw [hloop2]
    dsimp only
    rw [hset2]
  rw [hrun]
  refine ⟨rfl, rfl, ?_⟩
  rw [printableSize_invalidateCache]
  show ((⟨(s'.cells.rows.opIndexRead pos.row).2.store pos.row
      ((s'.cells.rows.opIndexRead pos.row).1.store pos.col cell)⟩ :
      SheetStorage Cell)).printableSize = _
  exact printableSize_set_present (by simp [hsc]) hset2

/-- Witness for C9: repeating `SetCell(A1, "=B1")` on a fresh sheet. -/
theorem setCell_idempotent_witness :
    emptySheet.setCell ⟨0, 0⟩ "=B1" =
      ((emptySheet.setCell ⟨0, 0⟩ "=B1").1, none) ∧
    (((emptySheet.setCell ⟨0, 0⟩ "=B1").1.setCell ⟨0, 0⟩ "=B1").2 = none ∧
     ((emptySheet.setCell ⟨0, 0⟩ "=B1").1.setCell ⟨0, 0⟩ "=B1").1.refs_from =
       (emptySheet.setCell ⟨0, 0⟩ "=B1").1.refs_from ∧
     ((emptySheet.setCell ⟨0, 0⟩ "=B1").1.setCell ⟨0, 0⟩
         "=B1").1.cells.printableSize =
       (emptySheet.setCell ⟨0, 0⟩ "=B1").1.cells.printableSize) :=
  ⟨by decide, setCell_idempotent emptySheet
    (emptySheet.setCell ⟨0, 0⟩ "=B1").1 ⟨0, 0⟩ "=B1" (by decide)⟩

/-!
## Lemmas: chains, acyclicity and the vertex list
-/

theorem lookupG_some_mem :
    ∀ (g : RefsGraph) (q : Position) (l : List Position),
      lookupG g q = some l → (q, l) ∈ g := by
  intro g q l h
  induction g with
  | nil => cases h
  | cons kl rest ih =>
      obtain ⟨k, l0⟩ := kl
      by_cases hk : k = q
      · subst hk
        simp only [lookupG, if_pos rfl] at h
        cases h
        exact List.mem_cons_self _ _
      · simp only [lookupG, if_neg hk] at h
        exact List.mem_cons_of_mem _ (ih h)

theorem mem_vertsG_of_entry :
    ∀ (g : RefsGraph) (q : Position) (l : List Position), (q, l) ∈ g →
      q ∈ vertsG g ∧ ∀ b ∈ l, b ∈ vertsG g := by
  intro g q l h
  induction g with
  | nil => cases h
  | cons kl rest ih =>
      rcases List.mem_cons.mp h with rfl | h'
      · constructor
        · simp [vertsG]
        · intro b hb
          simp [vertsG, hb]
      · obtain ⟨h1, h2⟩ := ih h'
        constructor
        · simp only [vertsG, List.foldr_cons, List.mem_cons, List.mem_append]
          exact Or.inr h1
        · intro b hb
          have hbv := h2 b hb
          simp only [vertsG, List.foldr_cons, List.mem_cons, List.mem_append]
          exact Or.inr hbv

theorem mem_verts_of_adj {g : RefsGraph} {a b : Position}
    (h : b ∈ adjG g a) : a ∈ vertsG g ∧ b ∈ vertsG g := by
  unfold adjG at h
  cases hl : lookupG g a with
  | none => rw [hl] at h; cases h
  | some l =>
      rw [hl] at h
      simp only [Option.getD_some] at h
      obtain ⟨h1, h2⟩ := mem_vertsG_of_entry g a l (lookupG_some_mem g a l hl)
      exact ⟨h1, h2 b h⟩

theorem chain_subset_verts {g : RefsGraph} :
    ∀ (l : List Position) (v : Position),
      List.Chain (adjRel g) v l → ∀ x ∈ l, x ∈ vertsG g := by
  intro l
  induction l with
  | nil => intro v _ x hx; cases hx
  | cons w rest ih =>
      intro v hc x hx
      rw [List.chain_cons] at hc
      rcases List.mem_cons.mp hx with rfl | hx'
      · exact (mem_verts_of_adj hc.1).2
      · exact ih w hc.2 x hx'

theorem chain_closed_of_reaches {g : RefsGraph} {v : Position}
    {l : List Position} (hc : List.Chain (adjRel g) v (l ++ [v])) :
    ReachesStrict g v v := ⟨l, hc⟩

/-- On an acyclic graph the vertices of a chain are pairwise distinct. -/
theorem chain_nodup {g : RefsGraph} (hacy : Acyclic g) :
    ∀ (l : List Position) (v : Position),
      List.Chain (adjRel g) v l → (v :: l).Nodup := by
  intro l
  induction l with
  | nil => intro v _; simp
  | cons w rest ih =>
      intro v hc
      rw [List.chain_cons] at hc
      obtain ⟨hvw, hwrest⟩ := hc
      have hnd : (w :: rest).Nodup := ih w hwrest
      rw [List.nodup_cons]
      refine ⟨?_, hnd⟩
      intro hmem
      rcases List.mem_cons.mp hmem with rfl | hmem'
      · exact hacy v ⟨[], by simpa [List.chain_cons] using hvw⟩
      · obtain ⟨r1, r2, rfl⟩ := List.append_of_mem hmem'
        have hsplit := (List.chain_split).mp hwrest
        exact hacy v ⟨w :: r1, by
          simp only [List.cons_append]
          rw [List.chain_cons]
          exact ⟨hvw, hsplit.1⟩⟩

/-- On an acyclic graph every chain is no longer than the vertex list. -/
theorem chain_length_le {g : RefsGraph} (hacy : Acyclic g)
    {v : Position} {l : List Position} (hc : List.Chain (adjRel g) v l) :
    l.length ≤ (vertsG g).length := by
  have hsub : l ⊆ vertsG g := fun x hx => chain_subset_verts l v hc x hx
  have hnd : l.Nodup := (List.nodup_cons.mp (chain_nodup hacy l v hc)).2
  exact (hnd.subperm hsub).length_le

theorem reachableWithin_of_chain {g : RefsGraph} :
    ∀ (l : List Position) (v w : Position) (fuel : Nat),
      List.Chain (adjRel g) v (l ++ [w]) → l.length + 1 ≤ fuel →
      reachableWithin g fuel v w = true := by
  intro l
  induction l with
  | nil =>
      intro v w fuel hc hlen
      rw [List.nil_append, List.chain_cons] at hc
      obtain ⟨hvw, -⟩ := hc
      obtain ⟨f, rfl⟩ : ∃ f, fuel = f + 1 := by
        cases fuel with
        | zero => omega
        | succ f => exact ⟨f, rfl⟩
      simp only [reachableWithin, List.any_eq_true]
      exact ⟨w, hvw, by simp⟩
  | cons x rest ih =>
      intro v w fuel hc hlen
      rw [List.cons_append, List.chain_cons] at hc
      obtain ⟨hvx, hxrest⟩ := hc
      obtain ⟨f, rfl⟩ : ∃ f, fuel = f + 1 := by
        cases fuel with
        | zero => simp at hlen
        | succ f => exact ⟨f, rfl⟩
      simp only [reachableWithin, List.any_eq_true]
      refine ⟨x, hvx, ?_⟩
      rw [Bool.or_eq_true]
      right
      exact ih x w f hxrest (by simpa using Nat.succ_le_succ_iff.mp hlen)

theorem nodup_or_split :
    ∀ (l : List Position),
      l.Nodup ∨ ∃ (a : Position) (l1 l2 l3 : List Position),
        l = l1 ++ a :: l2 ++ a :: l3 := by
  intro l
  induction l with
  | nil => exact Or.inl List.nodup_nil
  | cons x xs ih =>
      rcases ih with hnd | ⟨a, l1, l2, l3, rfl⟩
      · by_cases hx : x ∈ xs
        · obtain ⟨s, t, rfl⟩ := List.append_of_mem hx
          exact Or.inr ⟨x, [], s, t, by simp⟩
        · exact Or.inl (List.nodup_cons.mpr ⟨hx, hnd⟩)
      · exact Or.inr ⟨a, x :: l1, l2, l3, by simp⟩

/-- The decidable bounded check implies full acyclicity: a closed chain
of any length contains a closed chain of length at most the number of
vertices. -/
theorem acyclic_of_acyclicB {g : RefsGraph} (h : AcyclicB g = true) :
    Acyclic g := by
  intro v hreach
  obtain ⟨l, hc⟩ := hreach
  -- strong induction on the length of the closed chain
  have main : ∀ (m : Nat) (v : Position) (l : List Position),
      l.length ≤ m → List.Chain (adjRel g) v (l ++ [v]) → False := by
    intro m
    induction m with
    | zero =>
        intro v l hlen hc
        rw [List.length_eq_zero.mp (Nat.le_zero.mp hlen)] at hc
        rw [List.nil_append, List.chain_cons] at hc
        have hv : v ∈ vertsG g := (mem_verts_of_adj hc.1).1
        have hr : reachableWithin g (vertsG g).length v v = true := by
          apply reachableWithin_of_chain [] v v
          · rw [List.nil_append, List.chain_cons]
            exact ⟨hc.1, List.Chain.nil⟩
          · have : 1 ≤ (vertsG g).length := by
              cases hv' : vertsG g with
              | nil => rw [hv'] at hv; cases hv
              | cons a rest => simp
            simpa using this
        have := (List.all_eq_true.mp h) v hv
        simp [hr] at this
    | succ m ih =>
        intro v l hlen hc
        by_cases hshort : l.length + 1 ≤ (vertsG g).length
        · have hv : v ∈ vertsG g := by
            cases l with
            | nil =>
                rw [List.nil_append, List.chain_cons] at hc
                exact (mem_verts_of_adj hc.1).1
            | cons x xs =>
                rw [List.cons_append, List.chain_cons] at hc
                exact (mem_verts_of_adj hc.1).1
          have hr := reachableWithin_of_chain l v v (vertsG g).length hc hshort
          have := (List.all_eq_true.mp h) v hv
          simp [hr] at this
        · -- too long: some vertex repeats, extract a shorter closed chain
          rcases nodup_or_split (l ++ [v]) with hnd | ⟨a, l1, l2, l3, heq⟩
          · exfalso
            have hsub : l ++ [v] ⊆ vertsG g :=
              fun x hx => chain_subset_verts (l ++ [v]) v hc x hx
            have := (hnd.subperm hsub).length_le
            rw [List.length_append] at this
            simp only [List.length_singleton] at this
            omega
          · -- a closed chain from `a` of strictly smaller length
            rw [heq] at hc
            simp only [List.cons_append, List.append_assoc] at hc
            have h1 := (@List.chain_split _ (adjRel g) v a l1 (l2 ++ a :: l3)).mp hc
            have h2 := (@List.chain_split _ (adjRel g) a a l2 l3).mp h1.2
            apply ih a l2 ?_ h2.1
            -- length accounting: |l2| < |l| ≤ m + 1
            have hlen2 : l.length + 1 = l1.length + l2.length + l3.length + 2 := by
              have := congrArg List.length heq
              simp only [List.length_append, List.length_cons,
                List.length_nil] at this
              omega
            omega
  exact main l.length v l (Nat.le_refl _) hc

/-!
## Lemmas: the invalidate walk terminates and visits every referrer
-/

theorem weightFuel_pos (g : RefsGraph) :
    ∀ (k : Nat) (v : Position), 1 ≤ weightFuel g k v := by
  intro k v
  cases k with
  | zero => exact Nat.le_refl 1
  | succ n => simp [weightFuel]

/-- Once the depth bound dominates every chain length from `v`, the
weight stops growing. -/
theorem weightFuel_stab (g : RefsGraph) :
    ∀ (k : Nat) (v : Position),
      (∀ l : List Position, List.Chain (adjRel g) v l → l.length ≤ k) →
      weightFuel g (k + 1) v = weightFuel g k v := by
  intro k
  induction k with
  | zero =>
      intro v hch
      have hadj : adjG g v = [] := by
        cases ha : adjG g v with
        | nil => rfl
        | cons w rest =>
            exfalso
            have : List.Chain (adjRel g) v [w] := by
              rw [List.chain_cons]
              exact ⟨by rw [adjRel, ha]; exact List.mem_cons_self w rest,
                List.Chain.nil⟩
            have := hch [w] this
            simp at this
      simp [weightFuel, hadj]
  | succ k ih =>
      intro v hch
      show 1 + ((adjG g v).map (weightFuel g (k + 1))).sum =
        1 + ((adjG g v).map (weightFuel g k)).sum
      congr 1
      have hmap : (adjG g v).map (weightFuel g (k + 1)) =
          (adjG g v).map (weightFuel g k) := by
        apply List.map_congr_left
        intro w hw
        apply ih
        intro l hl
        have hchain : List.Chain (adjRel g) v (w :: l) := by
          rw [List.chain_cons]
          exact ⟨hw, hl⟩
        have h2 := hch (w :: l) hchain
        simp only [List.length_cons] at h2
        omega
      rw [hmap]

/-- On an acyclic graph the stabilized weight satisfies the tree
equation. -/
theorem weightFuel_eq {g : RefsGraph} (hacy : Acyclic g) (v : Position) :
    weightFuel g ((vertsG g).length + 1) v =
      1 + ((adjG g v).map (weightFuel g ((vertsG g).length + 1))).sum := by
  show 1 + ((adjG g v).map (weightFuel g (vertsG g).length)).sum = _
  congr 1
  have hmap : (adjG g v).map (weightFuel g (vertsG g).length) =
      (adjG g v).map (weightFuel g ((vertsG g).length + 1)) := by
    apply List.map_congr_left
    intro w _
    exact (weightFuel_stab g (vertsG g).length w
      (fun l hl => chain_length_le hacy hl)).symm
  rw [hmap]

theorem sum_map_filter_le (f : Position → Nat) (p : Position → Bool) :
    ∀ l : List Position, ((l.filter p).map f).sum ≤ (l.map f).sum := by
  intro l
  induction l with
  | nil => exact Nat.le_refl 0
  | cons x rest ih =>
      by_cases hp : p x
      · rw [List.filter_cons, if_pos hp]
        simp only [List.map_cons, List.sum_cons]
        omega
      · rw [List.filter_cons, if_neg (by simp [hp])]
        simp only [List.map_cons, List.sum_cons]
        omega

/-- With fuel at least the summed weights of the queue, the invalidate
walk drains the queue on an acyclic graph: each popped vertex is replaced
by neighbors whose total weight is strictly smaller. -/
theorem invalidateLoop_drains {g : RefsGraph} (hacy : Acyclic g) :
    ∀ (fuel : Nat) (queue disc : List Position)
      (cells : SheetStorage Cell),
      (queue.map (weightFuel g ((vertsG g).length + 1))).sum ≤ fuel →
      (invalidateLoop g fuel queue disc cells).2 = true := by
  intro fuel
  induction fuel with
  | zero =>
      intro queue disc cells hsum
      cases queue with
      | nil => rfl
      | cons v rest =>
          exfalso
          simp only [List.map_cons, List.sum_cons] at hsum
          have := weightFuel_pos g ((vertsG g).length + 1) v
          omega
  | succ f ih =>
      intro queue disc cells hsum
      cases queue with
      | nil => rfl
      | cons v rest =>
          simp only [invalidateLoop]
          apply ih
          simp only [List.map_append, List.sum_append, List.map_reverse,
            List.sum_reverse]
          have hpush :
              (((adjG g v).filter
                (fun w => !(insertP v disc).contains w)).map
                (weightFuel g ((vertsG g).length + 1))).sum ≤
              ((adjG g v).map
                (weightFuel g ((vertsG g).length + 1))).sum :=
            sum_map_filter_le _ _ _
          have hveq := weightFuel_eq hacy v
          simp only [List.map_cons, List.sum_cons] at hsum
          omega

theorem cacheCleared_clearCacheAt_self (cells : SheetStorage Cell)
    (v : Position) (hv : v.IsValid = true) :
    CacheCleared (clearCacheAt cells v) v := by
  intro c hc
  unfold clearCacheAt at hc
  rw [get_eq_of_valid _ _ hv] at hc
  cases hg : gridAt cells v with
  | none =>
      rw [hg] at hc
      dsimp only at hc
      rw [hg] at hc
      cases hc
  | some c0 =>
      rw [hg] at hc
      dsimp only at hc
      cases hs : cells.set v (Cell.invalidateCache c0) with
      | error e =>
          obtain ⟨-, hvf⟩ := set_error_classify hs
          rw [hv] at hvf
          cases hvf
      | ok cells' =>
          rw [hs] at hc
          dsimp only at hc
          rw [gridAt_set_self hs] at hc
          cases hc
          rfl

theorem cacheCleared_clearCacheAt_pres (cells : SheetStorage Cell)
    (v x : Position) (h : CacheCleared cells x) :
    CacheCleared (clearCacheAt cells v) x := by
  intro c hc
  unfold clearCacheAt at hc
  cases hg : cells.get v with
  | error e => rw [hg] at hc; exact h c hc
  | ok r =>
      rw [hg] at hc
      cases r with
      | none => exact h c hc
      | some c0 =>
          dsimp only at hc
          cases hs : cells.set v (Cell.invalidateCache c0) with
          | error e => rw [hs] at hc; exact h c hc
          | ok cells' =>
              rw [hs] at hc
              dsimp only at hc
              by_cases hx : x = v
              · subst hx
                rw [gridAt_set_self hs] at hc
                cases hc
                rfl
              · rw [gridAt_set_other hs x hx] at hc
                exact h c hc

theorem cacheCleared_invalidateLoop_pres (g : RefsGraph) :
    ∀ (fuel : Nat) (queue disc : List Position) (cells : SheetStorage Cell)
      (x : Position), CacheCleared cells x →
      CacheCleared (invalidateLoop g fuel queue disc cells).1 x := by
  intro fuel
  induction fuel with
  | zero => intro queue disc cells x h; exact h
  | succ f ih =>
      intro queue disc cells x h
      cases queue with
      | nil => exact h
      | cons v rest =>
          simp only [invalidateLoop]
          exact ih _ _ _ _ (cacheCleared_clearCacheAt_pres _ _ _ h)

/-- A vertex of a closed discovered set stays inside it along any
chain. -/
theorem chain_in_closed {g : RefsGraph} {disc : List Position}
    (hclosed : ∀ v ∈ disc, ∀ w ∈ adjG g v, w ∈ disc) :
    ∀ (l : List Position) (u : Position), u ∈ disc →
      List.Chain (adjRel g) u l → ∀ x ∈ u :: l, x ∈ disc := by
  intro l
  induction l with
  | nil =>
      intro u hu _ x hx
      rcases List.mem_cons.mp hx with rfl | h
      · exact hu
      · cases h
  | cons w rest ih =>
      intro u hu hc x hx
      rw [List.chain_cons] at hc
      have hw : w ∈ disc := hclosed u hu w hc.1
      rcases List.mem_cons.mp hx with rfl | hx'
      · exact hu
      · exact ih w hw hc.2 x hx'

/-- Main invariant of the invalidate walk: when the queue drains, the
caches of every vertex on a chain out of any queued or discovered vertex
are cleared in the resulting grid. -/
theorem invalidateLoop_clears (g : RefsGraph) :
    ∀ (fuel : Nat) (queue disc : List Position) (cells : SheetStorage Cell),
      (invalidateLoop g fuel queue disc cells).2 = true →
      (∀ v ∈ disc, ∀ w ∈ adjG g v, w ∈ disc ∨ w ∈ queue) →
      (∀ v ∈ disc, v.IsValid = true → CacheCleared cells v) →
      ∀ u, (u ∈ queue ∨ u ∈ disc) →
        ∀ l, List.Chain (adjRel g) u l →
          ∀ x ∈ u :: l, x.IsValid = true →
            CacheCleared (invalidateLoop g fuel queue disc cells).1 x := by
  intro fuel
  induction fuel with
  | zero =>
      intro queue disc cells hdrain hclosed hCC u hu l hc x hx hxv
      have hq : queue = [] := by
        cases queue with
        | nil => rfl
        | cons a b => simp [invalidateLoop] at hdrain
      subst hq
      have hclosed' : ∀ v ∈ disc, ∀ w ∈ adjG g v, w ∈ disc := by
        intro v hv w hw
        rcases hclosed v hv w hw with h | h
        · exact h
        · cases h
      have hu' : u ∈ disc := by
        rcases hu with h | h
        · cases h
        · exact h
      exact hCC x (chain_in_closed hclosed' l u hu' hc x hx) hxv
  | succ f ih =>
      intro queue disc cells hdrain hclosed hCC u hu l hc x hx hxv
      cases queue with
      | nil =>
          have hclosed' : ∀ v ∈ disc, ∀ w ∈ adjG g v, w ∈ disc := by
            intro v hv w hw
            rcases hclosed v hv w hw with h | h
            · exact h
            · cases h
          have hu' : u ∈ disc := by
            rcases hu with h | h
            · cases h
            · exact h
          exact hCC x (chain_in_closed hclosed' l u hu' hc x hx) hxv
      | cons v rest =>
          simp only [invalidateLoop] at hdrain ⊢
          set disc' := insertP v disc with hdisc'
          set pushed := (adjG g v).filter
            (fun w => !disc'.contains w) with hpushed
          apply ih (pushed.reverse ++ rest) disc'
            (clearCacheAt cells v) hdrain
          · -- closedness is preserved
            intro y hy w hw
            rw [hdisc', mem_insertP] at hy
            rcases hy with rfl | hy'
            · by_cases hwd : w ∈ disc'
              · exact Or.inl hwd
              · refine Or.inr (List.mem_append.mpr (Or.inl ?_))
                rw [List.mem_reverse, hpushed, List.mem_filter]
                refine ⟨hw, ?_⟩
                simp only [Bool.not_eq_true']
                rw [← Bool.not_eq_true]
                intro hcon
                exact hwd (List.elem_iff.mp hcon)
            · rcases hclosed y hy' w hw with hd | hq
              · exact Or.inl (by rw [hdisc', mem_insertP]; exact Or.inr hd)
              · rcases List.mem_cons.mp hq with rfl | hr
                · exact Or.inl (by rw [hdisc', mem_insertP]; exact Or.inl rfl)
                · exact Or.inr (List.mem_append.mpr (Or.inr hr))
          · -- discovered caches are cleared
            intro y hy hyv
            rw [hdisc', mem_insertP] at hy
            rcases hy with rfl | hy'
            · exact cacheCleared_clearCacheAt_self cells y hyv
            · exact cacheCleared_clearCacheAt_pres cells v y (hCC y hy' hyv)
          · -- the chain start stays queued or discovered
            rcases hu with hq | hd
            · rcases List.mem_cons.mp hq with rfl | hr
              · exact Or.inr (by rw [hdisc', mem_insertP]; exact Or.inl rfl)
              · exact Or.inl (List.mem_append.mpr (Or.inr hr))
            · exact Or.inr (by rw [hdisc', mem_insertP]; exact Or.inr hd)
          · exact hc
          · exact hx
          · exact hxv

/-- C4: after a successful `SetCell(p, t)`, the cell at `p` and the cell
at every transitive referrer of `p` — every vertex reachable from `p`
over `refs_from` in the committed state — carry no cached value, so
their next `GetValue` re-evaluates. `InvalidateCache` runs after the
graph diff and the cell install, walks `refs_from` from `p` with enough
budget on the (acyclic) committed graph to drain its queue, clears every
visited cell's cache, and at exhaustion its discovered set is closed
under the walked edges, hence contains every reachable vertex. The
committed graph of any reachable engine state is acyclic and mentions
only valid positions; both facts enter as decidable hypotheses on the
post-state. -/
theorem setCell_invalidates_referrers (s s' : Sheet) (pos : Position)
    (text : String) (h : s.setCell pos text = (s', none))
    (hacy : AcyclicB s'.refs_from = true) (hval : ValidVerts s'.refs_from) :
    ∀ q : Position, q = pos ∨ ReachesStrict s'.refs_from pos q →
      CacheCleared s'.cells q := by
  obtain ⟨cell, oldCell, g1, s2, cells', hcell, hget, hupd, hloop, hset,
    hfin⟩ := setCell_ok_decompose h
  have hvalid : pos.IsValid = true := (get_ok_classify hget).1
  subst hfin
  intro q hq
  show CacheCleared
    (invalidateLoop s2.refs_from (invalidateFuel s2.refs_from pos)
      [pos] [] cells').1 q
  have hacy' : Acyclic s2.refs_from := acyclic_of_acyclicB hacy
  have hdrain : (invalidateLoop s2.refs_from
      (invalidateFuel s2.refs_from pos) [pos] [] cells').2 = true := by
    apply invalidateLoop_drains hacy'
    simp only [List.map_cons, List.map_nil, List.sum_cons, List.sum_nil]
    exact Nat.le_of_eq (by rw [invalidateFuel]; omega)
  rcases hq with rfl | hreach
  · exact invalidateLoop_clears s2.refs_from _ [q] [] cells' hdrain
      (by intro v hv; cases hv) (by intro v hv; cases hv)
      q (Or.inl (List.mem_cons_self q [])) [] List.Chain.nil
      q (List.mem_cons_self q []) hvalid
  · obtain ⟨l, hc⟩ := hreach
    have hqv : q.IsValid = true := by
      apply hval
      exact chain_subset_verts (l ++ [q]) pos hc q
        (List.mem_append.mpr (Or.inr (List.mem_cons_self q [])))
    exact invalidateLoop_clears s2.refs_from _ [pos] [] cells' hdrain
      (by intro v hv; cases hv) (by intro v hv; cases hv)
      pos (Or.inl (List.mem_cons_self pos [])) (l ++ [q]) hc
      q (List.mem_cons.mpr (Or.inr
        (List.mem_append.mpr (Or.inr (List.mem_cons_self q []))))) hqv

/-- Witness for C4: with `A2 = "=A1"` in place, `SetCell(A1, "7")`
clears the cache at the referrer `A2`, which `A1` reaches in one step. -/
theorem setCell_invalidates_referrers_witness :
    CacheCleared
      (((emptySheet.setCell ⟨1, 0⟩ "=A1").1.setCell ⟨0, 0⟩ "7").1).cells
      ⟨1, 0⟩ :=
  setCell_invalidates_referrers
    (emptySheet.setCell ⟨1, 0⟩ "=A1").1
    (((emptySheet.setCell ⟨1, 0⟩ "=A1").1.setCell ⟨0, 0⟩ "7").1)
    ⟨0, 0⟩ "7" (by decide) (by decide)
    (by unfold ValidVerts; decide)
    ⟨1, 0⟩
    (Or.inr ⟨[], List.Chain.cons
      (show (⟨1, 0⟩ : Position) ∈
        adjG (((emptySheet.setCell ⟨1, 0⟩ "=A1").1.setCell
          ⟨0, 0⟩ "7").1).refs_from ⟨0, 0⟩ by decide)
      List.Chain.nil⟩)

/-!
## Lemmas: storage well-formedness preservation
-/

theorem mem_insertIdxSorted (j i : Int) :
    ∀ l : List Int, (j ∈ insertIdxSorted i l ↔ j = i ∨ j ∈ l) := by
  intro l
  induction l with
  | nil => simp [insertIdxSorted]
  | cons x rest ih =>
      unfold insertIdxSorted
      by_cases hle : i ≤ x
      · rw [if_pos hle]
        simp
      · rw [if_neg hle]
        simp only [List.mem_cons, ih]
        tauto

theorem insertIdxSorted_sorted (i : Int) :
    ∀ l : List Int, l.Chain' (· < ·) → i ∉ l →
      (insertIdxSorted i l).Chain' (· < ·) := by
  intro l
  induction l with
  | nil => intro _ _; simp [insertIdxSorted]
  | cons x rest ih =>
      intro hs hmem
      unfold insertIdxSorted
      by_cases hle : i ≤ x
      · rw [if_pos hle]
        refine List.Chain'.cons ?_ hs
        have hne : i ≠ x := fun hh => hmem (by
          rw [hh]
          exact List.mem_cons_self x rest)
        omega
      · rw [if_neg hle]
        rw [List.chain'_cons']
        refine ⟨?_, ih (List.Chain'.tail hs)
          (fun h => hmem (List.mem_cons_of_mem _ h))⟩
        intro y hy
        cases hrest : rest with
        | nil =>
            rw [hrest] at hy
            simp only [insertIdxSorted] at hy
            cases hy
            omega
        | cons z zs =>
            rw [hrest] at hy
            simp only [insertIdxSorted] at hy
            by_cases hiz : i ≤ z
            · rw [if_pos hiz] at hy
              cases hy
              omega
            · rw [if_neg hiz] at hy
              cases hy
              have := List.chain'_cons.mp (hrest ▸ hs)
              exact this.1

/-- `store` preserves the two-sided storage invariant. -/
theorem storageWF_store {T : Type} (st : IndexedStorage T) (i : Int) (v : T)
    (h : StorageWF st) : StorageWF (st.store i v) := by
  unfold IndexedStorage.store
  cases hl : lookupA st.data i with
  | some w =>
      refine ⟨?_, ?_, ?_⟩
      · show ((updateA st.data i v).map Prod.fst).Nodup
        rw [keys_updateA]
        exact h.keysNodup
      · exact h.indicesSorted
      · intro j
        rw [h.indicesMatch j]
        by_cases hj : j = i
        · subst hj
          show _ ↔ (lookupA (updateA st.data j v) j).isSome
          rw [lookupA_updateA_self _ _ _ (by simp [hl]), hl]
          simp
        · show _ ↔ (lookupA (updateA st.data i v) j).isSome
          rw [lookupA_updateA_other _ _ _ _ hj]
  | none =>
      have hni : i ∉ st.indices := by
        rw [h.indicesMatch i, hl]
        simp
      refine ⟨?_, ?_, ?_⟩
      · show ((st.data ++ [(i, v)]).map Prod.fst).Nodup
        rw [List.map_append]
        simp only [List.map_cons, List.map_nil]
        rw [List.nodup_append]
        refine ⟨h.keysNodup, List.nodup_singleton i, ?_⟩
        intro a ha hmem
        simp only [List.mem_singleton] at hmem
        subst hmem
        exact ((lookupA_none_iff_not_mem st.data a).mp hl) ha
      · exact insertIdxSorted_sorted i st.indices h.indicesSorted hni
      · intro j
        show j ∈ insertIdxSorted i st.indices ↔
          (lookupA (st.data ++ [(i, v)]) j).isSome
        rw [mem_insertIdxSorted]
        by_cases hj : j = i
        · subst hj
          rw [lookupA_append_self _ _ _ hl]
          simp
        · rw [lookupA_append_other _ _ _ _ hj, ← h.indicesMatch j]
          simp [hj]

/-- `erase` of a present index preserves the storage invariant. -/
theorem storageWF_erase {T : Type} {st st' : IndexedStorage T} {i : Int}
    (h : StorageWF st) (he : st.erase i = .ok st') : StorageWF st' := by
  unfold IndexedStorage.erase at he
  cases hl : lookupA st.data i with
  | none => rw [hl] at he; cases he
  | some w =>
      rw [hl] at he
      cases he
      refine ⟨?_, ?_, ?_⟩
      · show ((eraseA st.data i).map Prod.fst).Nodup
        rw [keys_eraseA]
        exact h.keysNodup.erase i
      · exact List.Chain'.sublist h.indicesSorted
          (List.erase_sublist i st.indices)
      · intro j
        by_cases hj : j = i
        · subst hj
          show j ∈ st.indices.erase j ↔ _
          rw [lookupA_eraseA_self _ _ h.keysNodup]
          have hpw : st.indices.Pairwise (· < ·) :=
            List.chain'_iff_pairwise.mp h.indicesSorted
          have hnd : st.indices.Nodup := hpw.imp (fun hlt => ne_of_lt hlt)
          simp [List.Nodup.mem_erase_iff hnd]
        · show j ∈ st.indices.erase i ↔ _
          rw [lookupA_eraseA_other _ _ _ hj,
            List.mem_erase_of_ne hj, h.indicesMatch j]

theorem storageWF_empty {T : Type} : StorageWF (IndexedStorage.emptyStorage : IndexedStorage T) :=
  ⟨List.nodup_nil, List.chain'_nil, fun i => by simp [IndexedStorage.emptyStorage, lookupA]⟩

theorem updateA_length {T : Type} :
    ∀ (d : List (Int × T)) (i : Int) (v : T),
      (updateA d i v).length = d.length := by
  intro d i v
  induction d with
  | nil => rfl
  | cons kv rest ih =>
      obtain ⟨k, w⟩ := kv
      by_cases hk : k = i <;> simp [updateA, hk, ih]

theorem store_data_ne_nil {T : Type} (st : IndexedStorage T) (i : Int)
    (v : T) : (st.store i v).data ≠ [] := by
  unfold IndexedStorage.store
  cases hl : lookupA st.data i with
  | some w =>
      show updateA st.data i v ≠ []
      intro hcon
      have := updateA_length st.data i v
      rw [hcon] at this
      cases hd : st.data with
      | nil => rw [hd] at hl; cases hl
      | cons a b => rw [hd] at this; simp at this
  | none => simp

/-- `Set` on a valid position preserves the grid invariant. -/
theorem gridWF_set {st st' : SheetStorage Cell} {pos : Position} {v : Cell}
    (h : GridWF st) (hs : st.set pos v = .ok st') : GridWF st' := by
  have hv : pos.IsValid = true := by
    by_contra hv
    have hv' : pos.IsValid = false := by simpa using hv
    simp [SheetStorage.set, checkValid_error hv'] at hs
  have hvrow : 0 ≤ pos.row ∧ pos.row < MAX_ROWS := by
    unfold Position.IsValid at hv
    simp only [Bool.and_eq_true, decide_eq_true_eq] at hv
    exact ⟨hv.1.1.1, hv.1.1.2⟩
  have hvcol : 0 ≤ pos.col ∧ pos.col < MAX_COLS := by
    unfold Position.IsValid at hv
    simp only [Bool.and_eq_true, decide_eq_true_eq] at hv
    exact ⟨hv.1.2, hv.2⟩
  rw [set_ok_of_valid _ _ _ hv] at hs
  cases hs
  cases hrow : lookupA st.rows.data pos.row with
  | some rw =>
      rw [opIndexRead_present _ _ _ hrow]
      dsimp only
      refine ⟨storageWF_store _ _ _ h.rowsWF, ?_, ?_, ?_, ?_⟩
      · intro i rw' hl
        by_cases hi : i = pos.row
        · subst hi
          rw [store_lookup_self] at hl
          cases hl
          exact storageWF_store _ _ _ (h.rowWF _ _ hrow)
        · rw [store_lookup_other _ _ _ _ hi] at hl
          exact h.rowWF _ _ hl
      · intro i rw' hl
        by_cases hi : i = pos.row
        · subst hi
          rw [store_lookup_self] at hl
          cases hl
          exact store_data_ne_nil _ _ _
        · rw [store_lookup_other _ _ _ _ hi] at hl
          exact h.rowsNonempty _ _ hl
      · intro i rw' hl
        by_cases hi : i = pos.row
        · subst hi; exact hvrow
        · rw [store_lookup_other _ _ _ _ hi] at hl
          exact h.rowIdxValid _ _ hl
      · intro i rw' hl j c hc
        by_cases hi : i = pos.row
        · subst hi
          rw [store_lookup_self] at hl
          cases hl
          by_cases hj : j = pos.col
          · subst hj; exact hvcol
          · rw [store_lookup_other _ _ _ _ hj] at hc
            exact h.colIdxValid _ _ hrow _ _ hc
        · rw [store_lookup_other _ _ _ _ hi] at hl
          exact h.colIdxValid _ _ hl _ _ hc
  | none =>
      rw [opIndexRead_absent _ _ hrow]
      dsimp only
      have hfresh : StorageWF (⟨st.rows.data ++ [(pos.row,
          IndexedStorage.emptyStorage)], insertIdxSorted pos.row
          st.rows.indices⟩ : IndexedStorage (IndexedStorage Cell)) := by
        have := storageWF_store st.rows pos.row
          (IndexedStorage.emptyStorage) h.rowsWF
        unfold IndexedStorage.store at this
        rw [hrow] at this
        exact this
      refine ⟨storageWF_store _ _ _ hfresh, ?_, ?_, ?_, ?_⟩
      · intro i rw' hl
        by_cases hi : i = pos.row
        · subst hi
          rw [store_lookup_self] at hl
          cases hl
          exact storageWF_store _ _ _ storageWF_empty
        · rw [store_lookup_other _ _ _ _ hi] at hl
          show StorageWF rw'
          rw [lookupA_append_other _ _ _ _ hi] at hl
          exact h.rowWF _ _ hl
      · intro i rw' hl
        by_cases hi : i = pos.row
        · subst hi
          rw [store_lookup_self] at hl
          cases hl
          exact store_data_ne_nil _ _ _
        · rw [store_lookup_other _ _ _ _ hi,
            lookupA_append_other _ _ _ _ hi] at hl
          exact h.rowsNonempty _ _ hl
      · intro i rw' hl
        by_cases hi : i = pos.row
        · subst hi; exact hvrow
        · rw [store_lookup_other _ _ _ _ hi,
            lookupA_append_other _ _ _ _ hi] at hl
          exact h.rowIdxValid _ _ hl
      · intro i rw' hl j c hc
        by_cases hi : i = pos.row
        · subst hi
          rw [store_lookup_self] at hl
          cases hl
          by_cases hj : j = pos.col
          · subst hj; exact hvcol
          · rw [store_lookup_other _ _ _ _ hj] at hc
            simp [IndexedStorage.emptyStorage, lookupA] at hc
        · rw [store_lookup_other _ _ _ _ hi,
            lookupA_append_other _ _ _ _ hi] at hl
          exact h.colIdxValid _ _ hl _ _ hc

theorem lookupA_eraseA_subset {T : Type} {d : List (Int × T)} {i j : Int}
    {c : T} (hnd : (d.map Prod.fst).Nodup)
    (h : lookupA (eraseA d i) j = some c) : lookupA d j = some c := by
  by_cases hj : j = i
  · subst hj
    rw [lookupA_eraseA_self _ _ hnd] at h
    cases h
  · rw [lookupA_eraseA_other _ _ _ hj] at h
    exact h

/-- The success form of `Clear(pos)` on a present cell whose row keeps
other cells. -/
theorem clear_cases {T : Type} {st st' : SheetStorage T} {pos : Position}
    (hc : st.clear pos = .ok st') :
    (st' = st ∧ gridAt st pos = none) ∨
    (∃ rw rw', lookupA st.rows.data pos.row = some rw ∧
      rw.erase pos.col = .ok rw' ∧ rw'.isEmpty = false ∧
      st' = ⟨st.rows.store pos.row rw'⟩) ∨
    (∃ rw rw' rows', lookupA st.rows.data pos.row = some rw ∧
      rw.erase pos.col = .ok rw' ∧ rw'.isEmpty = true ∧
      st.rows.erase pos.row = .ok rows' ∧ st' = ⟨rows'⟩) := by
  unfold SheetStorage.clear at hc
  split at hc
  · cases hc
  · split at hc
    · split at hc
      · rename_i hcnt hrow
        cases hc
        refine Or.inl ⟨rfl, ?_⟩
        unfold gridAt
        rw [hrow]
        rfl
      · rename_i hcnt rw hrow
        split at hc
        · split at hc
          · rename_i hcolcnt e herase
            cases hc
            refine Or.inl ⟨rfl, ?_⟩
            unfold IndexedStorage.erase at herase
            cases hcol2 : lookupA rw.data pos.col with
            | some w => rw [hcol2] at herase; cases herase
            | none =>
                unfold gridAt
                rw [hrow]
                simp [hcol2]
          · rename_i hcolcnt rw' herase
            split at hc
            · rename_i hemp
              split at hc
              · rename_i e herase2
                exfalso
                unfold IndexedStorage.erase at herase2
                rw [hrow] at herase2
                cases herase2
              · rename_i rows' herase2
                cases hc
                exact Or.inr (Or.inr ⟨rw, rw', rows', hrow, herase, hemp,
                  herase2, rfl⟩)
            · rename_i hemp
              cases hc
              exact Or.inr (Or.inl ⟨rw, rw', hrow, herase,
                by simpa using hemp, rfl⟩)
        · rename_i hcolcnt
          cases hc
          refine Or.inl ⟨rfl, ?_⟩
          have hcol : lookupA rw.data pos.col = none := by
            rw [← count_eq_zero_iff]
            omega
          unfold gridAt
          rw [hrow]
          simp [hcol]
    · rename_i hcnt
      cases hc
      refine Or.inl ⟨rfl, ?_⟩
      have hrow : lookupA st.rows.data pos.row = none := by
        rw [← count_eq_zero_iff]
        omega
      unfold gridAt
      rw [hrow]
      rfl


theorem gridWF_clear {st st' : SheetStorage Cell} {pos : Position}
    (h : GridWF st) (hc : st.clear pos = .ok st') : GridWF st' := by
  rcases clear_cases hc with ⟨rfl, -⟩ | ⟨rw, rw', hrow, herase, hne, rfl⟩ |
    ⟨rw, rw', rows', hrow, herase, hemp, herase2, rfl⟩
  · exact h
  · refine ⟨storageWF_store _ _ _ h.rowsWF, ?_, ?_, ?_, ?_⟩
    · intro i rwx hl
      by_cases hi : i = pos.row
      · subst hi
        rw [store_lookup_self] at hl
        cases hl
        exact storageWF_erase (h.rowWF _ _ hrow) herase
      · rw [store_lookup_other _ _ _ _ hi] at hl
        exact h.rowWF _ _ hl
    · intro i rwx hl
      by_cases hi : i = pos.row
      · subst hi
        rw [store_lookup_self] at hl
        cases hl
        exact fun hnil => by simp [IndexedStorage.isEmpty, hnil] at hne
      · rw [store_lookup_other _ _ _ _ hi] at hl
        exact h.rowsNonempty _ _ hl
    · intro i rwx hl
      by_cases hi : i = pos.row
      · subst hi
        exact h.rowIdxValid _ _ hrow
      · rw [store_lookup_other _ _ _ _ hi] at hl
        exact h.rowIdxValid _ _ hl
    · intro i rwx hl j c hcj
      by_cases hi : i = pos.row
      · subst hi
        rw [store_lookup_self] at hl
        cases hl
        unfold IndexedStorage.erase at herase
        cases hcol : lookupA rw.data pos.col with
        | none => rw [hcol] at herase; cases herase
        | some w =>
            rw [hcol] at herase
            cases herase
            have := lookupA_eraseA_subset (h.rowWF _ _ hrow).keysNodup hcj
            exact h.colIdxValid _ _ hrow _ _ this
      · rw [store_lookup_other _ _ _ _ hi] at hl
        exact h.colIdxValid _ _ hl _ _ hcj
  · have hsub : ∀ i rwx, lookupA rows'.data i = some rwx →
        lookupA st.rows.data i = some rwx := by
      intro i rwx hl
      unfold IndexedStorage.erase at herase2
      rw [hrow] at herase2
      cases herase2
      exact lookupA_eraseA_subset h.rowsWF.keysNodup hl
    refine ⟨storageWF_erase h.rowsWF herase2, ?_, ?_, ?_, ?_⟩
    · exact fun i rwx hl => h.rowWF _ _ (hsub i rwx hl)
    · exact fun i rwx hl => h.rowsNonempty _ _ (hsub i rwx hl)
    · exact fun i rwx hl => h.rowIdxValid _ _ (hsub i rwx hl)
    · exact fun i rwx hl => h.colIdxValid _ _ (hsub i rwx hl)

theorem gridAt_clear_self {st st' : SheetStorage Cell} {pos : Position}
    (h : GridWF st) (hc : st.clear pos = .ok st') :
    gridAt st' pos = none := by
  rcases clear_cases hc with ⟨rfl, habs⟩ | ⟨rw, rw', hrow, herase, hne, rfl⟩ |
    ⟨rw, rw', rows', hrow, herase, hemp, herase2, rfl⟩
  · exact habs
  · unfold gridAt
    dsimp only
    rw [store_lookup_self]
    simp only [Option.some_bind]
    unfold IndexedStorage.erase at herase
    cases hcol : lookupA rw.data pos.col with
    | none => rw [hcol] at herase; cases herase
    | some w =>
        rw [hcol] at herase
        cases herase
        exact lookupA_eraseA_self _ _ (h.rowWF _ _ hrow).keysNodup
  · unfold gridAt
    dsimp only
    unfold IndexedStorage.erase at herase2
    rw [hrow] at herase2
    cases herase2
    rw [lookupA_eraseA_self _ _ h.rowsWF.keysNodup]
    rfl

theorem gridAt_clear_other {st st' : SheetStorage Cell} {pos x : Position}
    (h : GridWF st) (hc : st.clear pos = .ok st') (hx : x ≠ pos) :
    gridAt st' x = gridAt st x := by
  rcases clear_cases hc with ⟨rfl, -⟩ | ⟨rw, rw', hrow, herase, hne, rfl⟩ |
    ⟨rw, rw', rows', hrow, herase, hemp, herase2, rfl⟩
  · rfl
  · unfold gridAt
    dsimp only
    by_cases hr : x.row = pos.row
    · have hcne : x.col ≠ pos.col := by
        intro hcc
        exact hx (by cases x; cases pos; simp_all)
      rw [hr, store_lookup_self, hrow]
      simp only [Option.some_bind]
      unfold IndexedStorage.erase at herase
      cases hcol : lookupA rw.data pos.col with
      | none => rw [hcol] at herase; cases herase
      | some w =>
          rw [hcol] at herase
          cases herase
          exact lookupA_eraseA_other _ _ _ hcne
    · rw [store_lookup_other _ _ _ _ hr]
  · unfold gridAt
    dsimp only
    unfold IndexedStorage.erase at herase2
    rw [hrow] at herase2
    cases herase2
    by_cases hr : x.row = pos.row
    · have hcne : x.col ≠ pos.col := by
        intro hcc
        exact hx (by cases x; cases pos; simp_all)
      rw [hr, lookupA_eraseA_self _ _ h.rowsWF.keysNodup, hrow]
      simp only [Option.some_bind]
      unfold IndexedStorage.erase at herase
      cases hcol : lookupA rw.data pos.col with
      | none => rw [hcol] at herase; cases herase
      | some w =>
          rw [hcol] at herase
          cases herase
          have hnil : eraseA rw.data pos.col = [] := by
            simpa [IndexedStorage.isEmpty] using hemp
          have h2 := lookupA_eraseA_other rw.data pos.col x.col hcne
          rw [hnil] at h2
          simp only [Option.none_bind]
          exact h2
    · rw [lookupA_eraseA_other _ _ _ hr]

/-!
## Lemmas: the invariant of the engine state
-/

theorem parseFormula_refs_valid (str : String) (e : Expr)
    (h : ParseFormula str = some e) :
    ∀ r ∈ exprReferencedCells e, r.IsValid = true := by
  unfold ParseFormula at h
  split at h <;> first
    | (cases h; decide)
    | cases h

theorem cellSet_refs_valid {text : String} {c : Cell}
    (h : Cell.set text = .ok c) :
    ∀ r ∈ c.getReferencedCells, r.IsValid = true := by
  unfold Cell.set at h
  split at h
  · cases h
    intro r hr
    cases hr
  · split at h
    · rename_i hform
      cases hp : ParseFormula (textAfterSign text) with
      | none => rw [hp] at h; cases h
      | some e =>
          rw [hp] at h
          cases h
          exact parseFormula_refs_valid _ _ hp
    · cases h
      intro r hr
      cases hr

theorem placeholderLoop_no_error :
    ∀ (refs : List Position) (s : Sheet),
      (∀ r ∈ refs, r.IsValid = true) →
      (s.placeholderLoop refs).2 = none := by
  intro refs
  induction refs with
  | nil => intro s _; rfl
  | cons r rest ih =>
      intro s h
      have hv := h r (List.mem_cons_self r rest)
      simp only [Sheet.placeholderLoop, Sheet.getCell]
      rw [get_eq_of_valid _ _ hv]
      cases hg : gridAt s.cells r with
      | some c => exact ih s (fun x hx => h x (List.mem_cons_of_mem _ hx))
      | none => exact ih _ (fun x hx => h x (List.mem_cons_of_mem _ hx))

/-- The outcome of `SetCell`: either an error and a state equal to the
input, or success. -/
theorem setCell_outcomes (s : Sheet) (pos : Position) (text : String) :
    (∃ e, s.setCell pos text = (s, some e)) ∨
    s.setCell pos text = ((s.setCell pos text).1, none) := by
  cases hout : s.setCell pos text with
  | mk s' res =>
      cases res with
      | none => right; rfl
      | some e =>
          left
          refine ⟨e, ?_⟩
          unfold Sheet.setCell at hout
          split at hout
          · cases hout; rfl
          · rename_i cell hcell
            split at hout
            · cases hout; rfl
            · rename_i oldCell hget
              dsimp only at hout ⊢
              split at hout
              · cases hout; rfl
              · rename_i g' hupd
                have hnoerr : (Sheet.placeholderLoop ⟨s.cells, g'⟩
                    cell.getReferencedCells).2 = none :=
                  placeholderLoop_no_error _ _ (cellSet_refs_valid hcell)
                split at hout
                · rename_i s2 e2 hloop
                  rw [hloop] at hnoerr
                  cases hnoerr
                · rename_i s2 hloop
                  split at hout
                  · rename_i e3 hset
                    obtain ⟨-, hvf⟩ := set_error_classify hset
                    have hv := (get_ok_classify hget).1
                    rw [hv] at hvf
                    cases hvf
                  · cases hout

theorem lookupG_graphAdd (g : RefsGraph) (q pos q' : Position) :
    lookupG (graphAdd g q pos) q' =
      if q' = q then some (insertP pos (adjG g q)) else lookupG g q' := by
  unfold graphAdd
  cases hl : lookupG g q with
  | some l =>
      by_cases hq : q' = q
      · subst hq
        rw [lookupG_updateG_self _ _ _ (by simp [hl]), if_pos rfl]
        unfold adjG
        rw [hl]
        rfl
      · rw [lookupG_updateG_other _ _ _ _ hq, if_neg hq]
  | none =>
      by_cases hq : q' = q
      · subst hq
        rw [lookupG_append_self _ _ _ hl, if_pos rfl]
        unfold adjG
        rw [hl]
        rfl
      · rw [lookupG_append_other _ _ _ _ hq, if_neg hq]

theorem setsNonempty_graphAdd (g : RefsGraph) (q pos : Position)
    (h : ∀ q' l, lookupG g q' = some l → l ≠ []) :
    ∀ q' l, lookupG (graphAdd g q pos) q' = some l → l ≠ [] := by
  intro q' l hl
  rw [lookupG_graphAdd] at hl
  by_cases hq : q' = q
  · rw [if_pos hq] at hl
    cases hl
    exact insertP_ne_nil _ _
  · rw [if_neg hq] at hl
    exact h q' l hl

theorem setsNonempty_addFold (ra : List Position) :
    ∀ (g : RefsGraph) (pos : Position),
      (∀ q' l, lookupG g q' = some l → l ≠ []) →
      ∀ q' l, lookupG (ra.foldl (fun acc r => graphAdd acc r pos) g) q' =
        some l → l ≠ [] := by
  induction ra with
  | nil => intro g pos h; exact h
  | cons x rest ih =>
      intro g pos h
      exact ih _ _ (setsNonempty_graphAdd _ _ _ h)

theorem setsNonempty_graphRemove (g : RefsGraph) (q pos : Position)
    (hk : GraphKeysNodup g)
    (h : ∀ q' l, lookupG g q' = some l → l ≠ []) :
    ∀ q' l, lookupG (graphRemove g q pos) q' = some l → l ≠ [] := by
  intro q' l hl
  unfold graphRemove at hl
  cases hg : lookupG g q with
  | none => rw [hg] at hl; exact h q' l hl
  | some l0 =>
      rw [hg] at hl
      dsimp only at hl
      by_cases he : (l0.erase pos).isEmpty
      · rw [if_pos he] at hl
        by_cases hq : q' = q
        · subst hq
          rw [lookupG_eraseG_self _ _ hk] at hl
          cases hl
        · rw [lookupG_eraseG_other _ _ _ hq] at hl
          exact h q' l hl
      · rw [if_neg he] at hl
        by_cases hq : q' = q
        · subst hq
          rw [lookupG_updateG_self _ _ _ (by simp [hg])] at hl
          cases hl
          simpa using he
        · rw [lookupG_updateG_other _ _ _ _ hq] at hl
          exact h q' l hl

theorem setsNonempty_removeFold (rd : List Position) :
    ∀ (g : RefsGraph) (pos : Position), GraphKeysNodup g →
      (∀ q' l, lookupG g q' = some l → l ≠ []) →
      ∀ q' l, lookupG (rd.foldl (fun acc x => graphRemove acc x pos) g) q' =
        some l → l ≠ [] := by
  induction rd with
  | nil => intro g pos _ h; exact h
  | cons x rest ih =>
      intro g pos hk h
      exact ih _ _ (keysG_graphRemove_nodup _ _ _ hk)
        (setsNonempty_graphRemove _ _ _ hk h)

theorem keysG_removeFold_nodup (rd : List Position) :
    ∀ (g : RefsGraph) (pos : Position), GraphKeysNodup g →
      GraphKeysNodup (rd.foldl (fun acc x => graphRemove acc x pos) g) := by
  induction rd with
  | nil => intro g pos h; exact h
  | cons x rest ih =>
      intro g pos h
      exact ih _ _ (keysG_graphRemove_nodup _ _ _ h)

theorem adjNodup_removeFold (rd : List Position) :
    ∀ (g : RefsGraph) (pos : Position), GraphKeysNodup g →
      (∀ q', (adjG g q').Nodup) →
      ∀ q', (adjG (rd.foldl (fun acc x => graphRemove acc x pos) g) q').Nodup := by
  induction rd with
  | nil => intro g pos _ h; exact h
  | cons x rest ih =>
      intro g pos hk h
      exact ih _ _ (keysG_graphRemove_nodup _ _ _ hk)
        (adjNodup_graphRemove _ _ _ hk h)

theorem mem_refsAdd (old_refs new_refs : List Position) (q : Position) :
    q ∈ refsAdd old_refs new_refs ↔ q ∈ new_refs ∧ q ∉ old_refs := by
  unfold refsAdd
  rw [List.mem_filter]
  constructor
  · rintro ⟨h1, h2⟩
    refine ⟨h1, ?_⟩
    intro hmem
    simp [List.elem_iff.mpr hmem] at h2
    exact h2 hmem
  · rintro ⟨h1, h2⟩
    refine ⟨h1, ?_⟩
    simp only [Bool.not_eq_true']
    rw [← Bool.not_eq_true]
    intro hcon
    exact h2 (List.elem_iff.mp hcon)

theorem mem_refsDel (old_refs new_refs : List Position) (q : Position) :
    q ∈ refsDel old_refs new_refs ↔ q ∈ old_refs ∧ q ∉ new_refs := by
  unfold refsDel
  rw [List.mem_filter]
  constructor
  · rintro ⟨h1, h2⟩
    refine ⟨h1, ?_⟩
    intro hmem
    simp [List.elem_iff.mpr hmem] at h2
    exact h2 hmem
  · rintro ⟨h1, h2⟩
    refine ⟨h1, ?_⟩
    simp only [Bool.not_eq_true']
    rw [← Bool.not_eq_true]
    intro hcon
    exact h2 (List.elem_iff.mp hcon)

/-- `pos`-membership in the committed graph is exactly membership in the
new reference set. -/
theorem pos_mem_commitRefs (g : RefsGraph) (pos : Position)
    (old_refs new_refs : List Position) (hk : GraphKeysNodup g)
    (ha : ∀ q', (adjG g q').Nodup)
    (hold : ∀ q, pos ∈ adjG g q ↔ q ∈ old_refs) (q : Position) :
    pos ∈ adjG (commitRefs g pos (refsAdd old_refs new_refs)
      (refsDel old_refs new_refs)) q ↔ q ∈ new_refs := by
  unfold commitRefs
  rw [pos_mem_adjG_removeFold _ _ _ _
    (keysG_addFold_nodup _ _ _ hk) (adjNodup_addFold _ _ _ ha)]
  rw [adjG_addFold]
  rw [mem_refsDel]
  by_cases hq : q ∈ refsAdd old_refs new_refs
  · rw [if_pos hq, mem_insertP]
    obtain ⟨hqn, hqo⟩ := (mem_refsAdd _ _ _).mp hq
    constructor
    · intro _; exact hqn
    · intro _
      constructor
      · exact Or.inl rfl
      · rintro ⟨h1, -⟩
        exact hqo h1
  · rw [if_neg hq]
    rw [hold q]
    rw [mem_refsAdd] at hq
    constructor
    · rintro ⟨h1, h2⟩
      by_contra hqn
      exact h2 ⟨h1, hqn⟩
    · intro hqn
      have hqo : q ∈ old_refs := by
        by_contra hqo
        exact hq ⟨hqn, hqo⟩
      exact ⟨hqo, fun hc => hc.2 hqn⟩

/-- Membership of a referrer other than `pos` survives the commit. -/
theorem ne_mem_commitRefs (g : RefsGraph) (pos : Position)
    (ra rd : List Position) (hk : GraphKeysNodup g) (p q : Position)
    (hne : p ≠ pos) :
    (p ∈ adjG (commitRefs g pos ra rd) q ↔ p ∈ adjG g q) := by
  unfold commitRefs
  rw [mem_adjG_removeFold_ne _ _ _ _ _ (keysG_addFold_nodup _ _ _ hk) hne]
  rw [adjG_addFold]
  by_cases hq : q ∈ ra
  · rw [if_pos hq, mem_insertP]
    constructor
    · rintro (rfl | h)
      · exact absurd rfl hne
      · exact h
    · exact Or.inr
  · rw [if_neg hq]

theorem gridWF_clearCacheAt (cells : SheetStorage Cell) (v : Position)
    (h : GridWF cells) : GridWF (clearCacheAt cells v) := by
  unfold clearCacheAt
  cases hg : cells.get v with
  | error e => exact h
  | ok oc =>
      cases oc with
      | none => exact h
      | some c =>
          dsimp only
          cases hs : cells.set v (Cell.invalidateCache c) with
          | ok cells' => exact gridWF_set h hs
          | error e => exact h

theorem gridWF_invalidateLoop (g : RefsGraph) :
    ∀ (fuel : Nat) (queue discovered : List Position)
      (cells : SheetStorage Cell), GridWF cells →
      GridWF (invalidateLoop g fuel queue discovered cells).1 := by
  intro fuel
  induction fuel with
  | zero => intro q d c h; exact h
  | succ k ih =>
      intro q d c h
      cases q with
      | nil => exact h
      | cons v rest =>
          simp only [invalidateLoop]
          exact ih _ _ _ (gridWF_clearCacheAt _ _ h)

theorem gridWF_invalidateCache (s : Sheet) (pos : Position)
    (h : GridWF s.cells) : GridWF (s.invalidateCache pos).cells :=
  gridWF_invalidateLoop _ _ _ _ _ h

theorem gridWF_setEmptyAt (s : Sheet) (r : Position) (h : GridWF s.cells) :
    GridWF (s.setEmptyAt r).cells := by
  unfold Sheet.setEmptyAt
  cases hs : s.cells.set r ⟨.empty, none⟩ with
  | ok cells' => exact gridWF_invalidateCache ⟨cells', s.refs_from⟩ r (gridWF_set h hs)
  | error e => exact h

theorem gridWF_placeholderLoop :
    ∀ (refs : List Position) (s : Sheet), GridWF s.cells →
      GridWF (s.placeholderLoop refs).1.cells := by
  intro refs
  induction refs with
  | nil => intro s h; exact h
  | cons r rest ih =>
      intro s h
      simp only [Sheet.placeholderLoop]
      cases hg : s.getCell r with
      | error e => exact h
      | ok oc =>
          cases oc with
          | none => exact ih _ (gridWF_setEmptyAt s r h)
          | some c => exact ih _ h

theorem contentRefsAt_congr {s1 s2 : Sheet} {p : Position}
    (h : contentAt s1.cells p = contentAt s2.cells p) :
    contentRefsAt s1 p = contentRefsAt s2 p := by
  unfold contentRefsAt
  unfold contentAt at h
  cases h1 : gridAt s1.cells p with
  | none =>
      rw [h1] at h
      cases h2 : gridAt s2.cells p with
      | none => rfl
      | some c2 => rw [h2] at h; simp at h
  | some c1 =>
      rw [h1] at h
      cases h2 : gridAt s2.cells p with
      | none => rw [h2] at h; simp at h
      | some c2 =>
          rw [h2] at h
          simp only [Option.map_some', Option.some.injEq] at h
          exact getReferencedCells_of_content h

theorem contentRefsAt_of_content {s : Sheet} {p : Position} {c : Cell}
    (h : contentAt s.cells p = some c.content) :
    contentRefsAt s p = c.getReferencedCells := by
  unfold contentRefsAt
  unfold contentAt at h
  cases h1 : gridAt s.cells p with
  | none => rw [h1] at h; simp at h
  | some c1 =>
      rw [h1] at h
      simp only [Option.map_some', Option.some.injEq] at h
      exact getReferencedCells_of_content h

theorem contentRefsAt_of_none {s : Sheet} {p : Position}
    (h : contentAt s.cells p = none) : contentRefsAt s p = [] := by
  unfold contentRefsAt
  unfold contentAt at h
  cases h1 : gridAt s.cells p with
  | none => rfl
  | some c1 => rw [h1] at h; simp at h

/-- Membership in `contentRefsAt` unfolded to the claim's wording: the
cell stored at `p` is a formula whose referenced cells contain `q`. -/
theorem mem_contentRefsAt_iff (s : Sheet) (p q : Position) :
    q ∈ contentRefsAt s p ↔
      ∃ e : Expr, contentAt s.cells p = some (.formula e) ∧
        q ∈ exprReferencedCells e := by
  unfold contentRefsAt contentAt
  cases h1 : gridAt s.cells p with
  | none => simp
  | some c =>
      simp only [Option.map_some', Option.some.injEq]
      unfold Cell.getReferencedCells
      cases hc : c.content with
      | empty => simp
      | text t => simp
      | formula e =>
          constructor
          · intro hq
            exact ⟨e, rfl, hq⟩
          · rintro ⟨e', he, hq⟩
            cases he
            exact hq

theorem getValue_content (c : Cell) (s : Sheet) :
    (c.getValue s).2.content = c.content := by
  unfold Cell.getValue
  cases hc : c.content with
  | empty => exact hc
  | text t => exact hc
  | formula e =>
      cases hk : c.cache with
      | some fv => exact hc
      | none => rfl

theorem clear_ok_of_valid {T : Type} (st : SheetStorage T) (pos : Position)
    (hv : pos.IsValid = true) : ∃ st', st.clear pos = .ok st' := by
  unfold SheetStorage.clear
  rw [checkValid_ok hv]
  dsimp only
  split
  · split
    · exact ⟨_, rfl⟩
    · split
      · split
        · exact ⟨_, rfl⟩
        · split
          · split
            · exact ⟨_, rfl⟩
            · exact ⟨_, rfl⟩
          · exact ⟨_, rfl⟩
      · exact ⟨_, rfl⟩
  · exact ⟨_, rfl⟩

theorem adjNodup_of_setsNodup {g : RefsGraph}
    (h : ∀ q l, lookupG g q = some l → l.Nodup) :
    ∀ q, (adjG g q).Nodup := by
  intro q
  unfold adjG
  cases hl : lookupG g q with
  | none => exact List.nodup_nil
  | some l => exact h q l hl

theorem setsNodup_of_adjNodup {g : RefsGraph}
    (h : ∀ q, (adjG g q).Nodup) :
    ∀ q l, lookupG g q = some l → l.Nodup := by
  intro q l hl
  have hq := h q
  unfold adjG at hq
  rw [hl] at hq
  exact hq

/-- A successful `UpdateRefs` on a well-formed graph keeps the three
structural properties and changes exactly the `pos`-memberships: `pos`
now sits in `refs_from[q]` exactly when `q` is a new reference, and no
other membership moves. -/
theorem updateRefs_graph_props {s : Sheet} {pos : Position} {g' : RefsGraph}
    {new_refs : List Position}
    (hwf : GraphWF s)
    (hupd : updateRefs s.refs_from pos (contentRefsAt s pos) new_refs =
      .ok g') :
    GraphKeysNodup g' ∧
    (∀ q l, lookupG g' q = some l → l.Nodup) ∧
    (∀ q l, lookupG g' q = some l → l ≠ []) ∧
    (∀ q, (pos ∈ adjG g' q ↔ q ∈ new_refs)) ∧
    (∀ p q, p ≠ pos → (p ∈ adjG g' q ↔ p ∈ adjG s.refs_from q)) := by
  have hg := updateRefs_ok hupd
  subst hg
  have hadj : ∀ q, (adjG s.refs_from q).Nodup :=
    adjNodup_of_setsNodup hwf.setsNodup
  have hk1 := keysG_addFold_nodup (refsAdd (contentRefsAt s pos) new_refs)
    s.refs_from pos hwf.keysNodup
  refine ⟨?_, ?_, ?_, ?_, ?_⟩
  · unfold commitRefs
    exact keysG_removeFold_nodup _ _ _ hk1
  · apply setsNodup_of_adjNodup
    unfold commitRefs
    exact adjNodup_removeFold _ _ _ hk1 (adjNodup_addFold _ _ _ hadj)
  · unfold commitRefs
    exact setsNonempty_removeFold _ _ _ hk1
      (setsNonempty_addFold _ _ _ hwf.setsNonempty)
  · intro q
    exact pos_mem_commitRefs _ _ _ _ hwf.keysNodup hadj
      (fun q' => hwf.graphIff pos q') q
  · intro p q hp
    exact ne_mem_commitRefs _ _ _ _ hwf.keysNodup p q hp

theorem sheetWF_setCell (s : Sheet) (pos : Position) (text : String)
    (h : SheetWF s) : SheetWF (s.setCell pos text).1 := by
  rcases setCell_outcomes s pos text with ⟨e, he⟩ | hok
  · rw [he]; exact h
  · obtain ⟨cell, oldCell, g', s2, cells', hcell, hget, hupd, hloop, hset,
      hfin⟩ := setCell_ok_decompose hok
    have hget' : s.cells.get pos = .ok oldCell := hget
    obtain ⟨hv, hgrid⟩ := get_ok_classify hget'
    have hs2refs : s2.refs_from = g' := by
      have hh := refs_placeholderLoop cell.getReferencedCells ⟨s.cells, g'⟩
      rw [hloop] at hh
      exact hh
    have holdrefs : oldRefsOf oldCell = contentRefsAt s pos := by
      cases oldCell with
      | none =>
          rw [contentRefsAt_of_none]
          · rfl
          · unfold contentAt
            rw [hgrid]
            rfl
      | some c =>
          have hcs : contentAt s.cells pos = some c.content := by
            unfold contentAt
            rw [hgrid]
            rfl
          rw [contentRefsAt_of_content hcs]
          rfl
    rw [holdrefs] at hupd
    obtain ⟨hk', hnd', hne', hpos', hmove'⟩ := updateRefs_graph_props h.graph hupd
    have hg2 : GridWF s2.cells := by
      have hh := gridWF_placeholderLoop cell.getReferencedCells
        ⟨s.cells, g'⟩ h.grid
      rw [hloop] at hh
      exact hh
    have hrefs' : (Sheet.invalidateCache ⟨cells', s2.refs_from⟩ pos).refs_from
        = g' := by
      rw [refs_invalidateCache]
      exact hs2refs
    rw [hfin]
    refine ⟨?_, ?_⟩
    · exact gridWF_invalidateCache ⟨cells', s2.refs_from⟩ pos
        (gridWF_set hg2 hset)
    · refine ⟨?_, ?_, ?_, ?_⟩
      · rw [hrefs']; exact hk'
      · simp only [hrefs']; exact hnd'
      · simp only [hrefs']; exact hne'
      · intro p q
        simp only [hrefs']
        have hca : contentAt (Sheet.invalidateCache ⟨cells', s2.refs_from⟩
            pos).cells p = contentAt cells' p :=
          contentAt_invalidateCache ⟨cells', s2.refs_from⟩ pos p
        by_cases hp : p = pos
        · subst hp
          have hcp : contentAt (Sheet.invalidateCache ⟨cells', s2.refs_from⟩
              p).cells p = some cell.content := by
            rw [hca]
            unfold contentAt
            rw [gridAt_set_self hset]
            rfl
          rw [contentRefsAt_of_content hcp]
          exact hpos' q
        · have hpl := contentAt_placeholderLoop cell.getReferencedCells
            ⟨s.cells, g'⟩ p
          rw [hloop] at hpl
          have hother : contentAt cells' p = contentAt s2.cells p := by
            unfold contentAt
            rw [gridAt_set_other hset p hp]
          rcases hpl with heq | ⟨hnone, hmem, hemp⟩
          · have hcongr : contentRefsAt (Sheet.invalidateCache
                ⟨cells', s2.refs_from⟩ pos) p = contentRefsAt s p := by
              apply contentRefsAt_congr
              rw [hca, hother]
              exact heq
            rw [hcongr, hmove' p q hp]
            exact h.graph.graphIff p q
          · have hcp : contentAt (Sheet.invalidateCache ⟨cells', s2.refs_from⟩
                pos).cells p = some ((⟨.empty, none⟩ : Cell).content) := by
              rw [hca, hother]
              exact hemp
            rw [contentRefsAt_of_content hcp]
            have hnone2 : contentAt s.cells p = none := hnone
            rw [hmove' p q hp, h.graph.graphIff p q,
              contentRefsAt_of_none hnone2]
            simp [Cell.getReferencedCells]

theorem sheetWF_clearCell (s : Sheet) (pos : Position) (h : SheetWF s) :
    SheetWF (s.clearCell pos).1 := by
  unfold Sheet.clearCell
  cases hg : s.getCell pos with
  | error e => exact h
  | ok oc =>
      cases oc with
      | none => exact h
      | some cell =>
          dsimp only
          have hg' : s.cells.get pos = .ok (some cell) := hg
          obtain ⟨hv, hgrid⟩ := get_ok_classify hg'
          have hrefs : contentRefsAt s pos = cell.getReferencedCells := by
            apply contentRefsAt_of_content
            unfold contentAt
            rw [hgrid]
            rfl
          cases hupd : updateRefs s.refs_from pos cell.getReferencedCells []
            with
          | error e => exact h
          | ok g' =>
              rw [← hrefs] at hupd
              obtain ⟨hk', hnd', hne', hpos', hmove'⟩ :=
                updateRefs_graph_props h.graph hupd
              obtain ⟨cells', hcl⟩ := clear_ok_of_valid s.cells pos hv
              rw [hcl]
              dsimp only
              refine ⟨gridWF_clear h.grid hcl, ?_, ?_, ?_, ?_⟩
              · exact hk'
              · exact hnd'
              · exact hne'
              · intro p q
                show p ∈ adjG g' q ↔ _
                by_cases hp : p = pos
                · subst hp
                  rw [hpos' q]
                  have hnone : contentAt (⟨cells', g'⟩ : Sheet).cells p =
                      none := by
                    unfold contentAt
                    rw [gridAt_clear_self h.grid hcl]
                    rfl
                  rw [contentRefsAt_of_none hnone]
                · rw [hmove' p q hp, h.graph.graphIff p q]
                  have hcongr : contentRefsAt (⟨cells', g'⟩ : Sheet) p =
                      contentRefsAt s p := by
                    apply contentRefsAt_congr
                    unfold contentAt
                    rw [gridAt_clear_other h.grid hcl hp]
                  rw [hcongr]

theorem sheetWF_getValueAt (s : Sheet) (pos : Position) (h : SheetWF s) :
    SheetWF (s.getValueAt pos).2 := by
  unfold Sheet.getValueAt
  cases hg : s.cells.get pos with
  | error e => exact h
  | ok oc =>
      cases oc with
      | none => exact h
      | some c =>
          dsimp only
          obtain ⟨hv, hgrid⟩ := get_ok_classify hg
          cases hvc : c.getValue s with
          | mk v c' =>
              dsimp only
              cases hs : s.cells.set pos c' with
              | error e => exact h
              | ok cells' =>
                  dsimp only
                  have hcc : c'.content = c.content := by
                    have hh := getValue_content c s
                    rw [hvc] at hh
                    exact hh
                  have hca : ∀ x, contentAt (⟨cells', s.refs_from⟩ :
                      Sheet).cells x = contentAt s.cells x := by
                    intro x
                    unfold contentAt
                    by_cases hx : x = pos
                    · subst hx
                      rw [gridAt_set_self hs, hgrid]
                      show some c'.content = some c.content
                      rw [hcc]
                    · rw [gridAt_set_other hs x hx]
                  refine ⟨gridWF_set h.grid hs, ?_, ?_, ?_, ?_⟩
                  · exact h.graph.keysNodup
                  · exact h.graph.setsNodup
                  · exact h.graph.setsNonempty
                  · intro p q
                    rw [contentRefsAt_congr (hca p)]
                    exact h.graph.graphIff p q

theorem sheetWF_foldl {α : Type} (f : String × Sheet → α → String × Sheet)
    (hf : ∀ acc a, SheetWF acc.2 → SheetWF (f acc a).2) :
    ∀ (l : List α) (acc : String × Sheet), SheetWF acc.2 →
      SheetWF ((l.foldl f acc).2) := by
  intro l
  induction l with
  | nil => intro acc h; exact h
  | cons a rest ih =>
      intro acc h
      exact ih _ (hf acc a h)

theorem sheetWF_printRowValues (s : Sheet) (row : Int) (cols : Nat)
    (h : SheetWF s) : SheetWF (printRowValues s row cols).2 := by
  unfold printRowValues
  apply sheetWF_foldl
  · intro acc c hacc
    dsimp only
    cases hm : Sheet.getValueAt acc.2 ⟨row, (c : Int)⟩ with
    | mk ov s' =>
        have hwf := sheetWF_getValueAt acc.2 ⟨row, (c : Int)⟩ hacc
        rw [hm] at hwf
        cases ov with
        | some v => exact hwf
        | none => exact hwf
  · exact h

theorem sheetWF_printValues (s : Sheet) (h : SheetWF s) :
    SheetWF s.printValues.2 := by
  unfold Sheet.printValues
  apply sheetWF_foldl
  · intro acc r hacc
    dsimp only
    cases hm : printRowValues acc.2 (r : Int) s.cells.printableSize.cols.toNat
      with
    | mk line s' =>
        have hwf := sheetWF_printRowValues acc.2 (r : Int)
          s.cells.printableSize.cols.toNat hacc
        rw [hm] at hwf
        exact hwf
  · exact h

theorem sheetWF_empty : SheetWF emptySheet := by
  refine ⟨⟨storageWF_empty, ?_, ?_, ?_, ?_⟩, ?_, ?_, ?_, ?_⟩
  · intro i rw hl; cases hl
  · intro i rw hl; cases hl
  · intro i rw hl; cases hl
  · intro i rw hl; cases hl
  · exact List.nodup_nil
  · intro q l hl; cases hl
  · intro q l hl; cases hl
  · intro p q
    show p ∈ adjG [] q ↔ _
    rw [contentRefsAt_of_none]
    · simp [adjG, lookupG]
    · rfl

theorem sheetWF_applyOp (s : Sheet) (op : SheetOp) (h : SheetWF s) :
    SheetWF (applyOp s op) := by
  cases op with
  | set pos text => exact sheetWF_setCell s pos text h
  | clear pos => exact sheetWF_clearCell s pos h
  | getCell pos => exact h
  | getValue pos => exact sheetWF_getValueAt s pos h
  | printValues => exact sheetWF_printValues s h
  | printTexts => exact h

theorem sheetWF_runOps (ops : List SheetOp) : SheetWF (runOps ops) := by
  unfold runOps
  have hh : ∀ (l : List SheetOp) (s : Sheet), SheetWF s →
      SheetWF (l.foldl applyOp s) := by
    intro l
    induction l with
    | nil => intro s h; exact h
    | cons op rest ih => intro s h; exact ih _ (sheetWF_applyOp s op h)
  exact hh ops emptySheet sheetWF_empty

/-- C5: after every sequence of public operations applied to a fresh
sheet, for all positions `p` and `q`: `p` is a member of `refs_from[q]`
if and only if the cell stored at `p` is a formula cell whose
referenced-cells set contains `q`; and `refs_from` never maps a key to an
empty set (the key is erased when its set becomes empty). -/
theorem refs_graph_invariant (ops : List SheetOp) :
    (∀ p q : Position,
      p ∈ adjG (runOps ops).refs_from q ↔
        ∃ e : Expr, contentAt (runOps ops).cells p =
          some (CellContent.formula e) ∧ q ∈ exprReferencedCells e) ∧
    (∀ (q : Position) (l : List Position),
      lookupG (runOps ops).refs_from q = some l → l ≠ []) := by
  have h := sheetWF_runOps ops
  constructor
  · intro p q
    rw [h.graph.graphIff p q]
    exact mem_contentRefsAt_iff (runOps ops) p q
  · exact h.graph.setsNonempty

theorem getLast_mem_of_eq :
    ∀ (l : List Int) (y : Int), l.getLast? = some y → y ∈ l := by
  intro l
  induction l with
  | nil => intro y hy; cases hy
  | cons a rest ih =>
      intro y hy
      cases rest with
      | nil =>
          simp [List.getLast?] at hy
          simp [hy]
      | cons b t =>
          rw [List.getLast?_cons_cons] at hy
          exact List.mem_cons_of_mem a (ih y hy)

theorem sorted_le_getLast :
    ∀ (l : List Int), l.Chain' (· < ·) →
      ∀ x ∈ l, ∀ y, l.getLast? = some y → x ≤ y := by
  intro l
  induction l with
  | nil => intro _ x hx; cases hx
  | cons a rest ih =>
      intro hc x hx y hy
      cases rest with
      | nil =>
          simp [List.getLast?] at hy
          rcases List.mem_singleton.mp hx with rfl
          omega
      | cons b t =>
          have hcc := List.chain'_cons.mp hc
          have hy' : (b :: t).getLast? = some y := by
            rw [List.getLast?_cons_cons] at hy
            exact hy
          rcases List.mem_cons.mp hx with rfl | hxr
          · have hb := ih hcc.2 b (List.mem_cons_self b t) y hy'
            omega
          · exact ih hcc.2 x hxr y hy'

theorem indices_ne_nil_of_data {T : Type} {st : IndexedStorage T}
    (h : StorageWF st) (hd : st.data ≠ []) : st.indices ≠ [] := by
  cases hdata : st.data with
  | nil => exact absurd hdata hd
  | cons kv rest =>
      have hk : (lookupA st.data kv.1).isSome = true := by
        rw [hdata]
        cases kv with
        | mk k v => simp [lookupA]
      have hmem := (h.indicesMatch kv.1).mpr hk
      intro hnil
      rw [hnil] at hmem
      cases hmem

theorem indices_nil_of_data {T : Type} {st : IndexedStorage T}
    (h : StorageWF st) (hi : st.data = []) : st.indices = [] := by
  rcases hx : st.indices with _ | ⟨i, rest⟩
  · rfl
  · have hmem : i ∈ st.indices := by
      rw [hx]
      exact List.mem_cons_self i rest
    have hsome := (h.indicesMatch i).mp hmem
    rw [hi] at hsome
    simp [lookupA] at hsome

theorem row_entry_exists {st : SheetStorage Cell} (h : GridWF st)
    (k : Int) (rw : IndexedStorage Cell)
    (hk : lookupA st.rows.data k = some rw) :
    ∃ j c, lookupA rw.data j = some c := by
  have hne := h.rowsNonempty k rw hk
  cases hd : rw.data with
  | nil => exact absurd hd hne
  | cons kv rest =>
      cases kv with
      | mk j c =>
          refine ⟨j, c, ?_⟩
          simp [hd, lookupA]

theorem printFold_ge_init :
    ∀ (l : List (Int × Option (IndexedStorage Cell))) (acc : Int),
      acc ≤ l.foldl
        (fun acc entry =>
          match entry.2 with
          | some rw => if !rw.isEmpty then max acc (rw.backIndex + 1) else acc
          | none => acc) acc := by
  intro l
  induction l with
  | nil => intro acc; exact le_refl acc
  | cons e rest ih =>
      intro acc
      rw [List.foldl_cons]
      refine le_trans ?_ (ih _)
      dsimp only
      cases he : e.2 with
      | none => exact le_refl acc
      | some rw =>
          by_cases hr : rw.isEmpty
          · simp [hr]
          · simp only [hr, Bool.not_false, if_pos]
            exact le_max_left _ _

theorem printFold_ge_mem :
    ∀ (l : List (Int × Option (IndexedStorage Cell))) (acc : Int)
      (i : Int) (rw : IndexedStorage Cell),
      (i, some rw) ∈ l → rw.isEmpty = false →
      rw.backIndex + 1 ≤ l.foldl
        (fun acc entry =>
          match entry.2 with
          | some rw => if !rw.isEmpty then max acc (rw.backIndex + 1) else acc
          | none => acc) acc := by
  intro l
  induction l with
  | nil => intro acc i rw hmem; cases hmem
  | cons e rest ih =>
      intro acc i rw hmem hemp
      rw [List.foldl_cons]
      rcases List.mem_cons.mp hmem with rfl | hr
      · refine le_trans ?_ (printFold_ge_init rest _)
        dsimp only
        simp only [hemp, Bool.not_false, if_pos]
        exact le_max_right _ _
      · exact ih _ i rw hr hemp

theorem printFold_attained :
    ∀ (l : List (Int × Option (IndexedStorage Cell))) (acc : Int),
      l.foldl
        (fun acc entry =>
          match entry.2 with
          | some rw => if !rw.isEmpty then max acc (rw.backIndex + 1) else acc
          | none => acc) acc = acc ∨
      ∃ i rw, (i, some rw) ∈ l ∧ rw.isEmpty = false ∧
        l.foldl
          (fun acc entry =>
            match entry.2 with
            | some rw => if !rw.isEmpty then max acc (rw.backIndex + 1)
                else acc
            | none => acc) acc = rw.backIndex + 1 := by
  intro l
  induction l with
  | nil => intro acc; exact Or.inl rfl
  | cons e rest ih =>
      intro acc
      rw [List.foldl_cons]
      cases e with
      | mk i oe =>
          cases he : oe with
          | none =>
              dsimp only
              rcases ih acc with h1 | ⟨j, rw, hmem, hemp, heq⟩
              · exact Or.inl h1
              · exact Or.inr ⟨j, rw, List.mem_cons_of_mem _ hmem, hemp, heq⟩
          | some rw0 =>
              dsimp only
              by_cases hr : rw0.isEmpty
              · simp only [hr, Bool.not_true, if_neg, Bool.false_eq_true,
                  not_false_eq_true, if_false]
                rcases ih acc with h1 | ⟨j, rw, hmem, hemp, heq⟩
                · exact Or.inl h1
                · exact Or.inr ⟨j, rw, List.mem_cons_of_mem _ hmem, hemp,
                    heq⟩
              · have hr' : rw0.isEmpty = false := by simpa using hr
                simp only [hr', Bool.not_false, if_pos]
                rcases ih (max acc (rw0.backIndex + 1)) with h1 |
                    ⟨j, rw, hmem, hemp, heq⟩
                · rcases max_choice acc (rw0.backIndex + 1) with hm | hm
                  · exact Or.inl (h1.trans hm)
                  · exact Or.inr ⟨i, rw0, List.mem_cons_self _ _, hr',
                      h1.trans hm⟩
                · exact Or.inr ⟨j, rw, List.mem_cons_of_mem _ hmem, hemp,
                    heq⟩

theorem getLast_exists_of_ne_nil :
    ∀ (l : List Int), l ≠ [] → ∃ y, l.getLast? = some y := by
  intro l
  induction l with
  | nil => intro h; exact absurd rfl h
  | cons a rest ih =>
      intro _
      cases rest with
      | nil => exact ⟨a, by simp [List.getLast?]⟩
      | cons b t =>
          obtain ⟨y, hy⟩ := ih (by simp)
          refine ⟨y, ?_⟩
          rw [List.getLast?_cons_cons]
          exact hy

theorem isEmpty_false_of_ne_nil {T : Type} {st : IndexedStorage T}
    (h : st.data ≠ []) : st.isEmpty = false := by
  unfold IndexedStorage.isEmpty
  cases hd : st.data with
  | nil => exact absurd hd h
  | cons a rest => rfl

theorem printableSize_rows_eq {st : SheetStorage Cell}
    (hne : st.rows.isEmpty = false) :
    st.printableSize.rows = st.rows.backIndex + 1 := by
  unfold SheetStorage.printableSize
  simp only [hne, Bool.false_eq_true, if_false]

theorem foldl_fun_congr {α β : Type} (f g : β → α → β)
    (h : ∀ b a, f b a = g b a) :
    ∀ (l : List α) (b : β), l.foldl f b = l.foldl g b := by
  intro l
  induction l with
  | nil => intro b; rfl
  | cons x rest ih =>
      intro b
      rw [List.foldl_cons, List.foldl_cons, h]
      exact ih _

theorem printableSize_cols_eq {st : SheetStorage Cell}
    (hne : st.rows.isEmpty = false) :
    st.printableSize.cols = st.rows.entries.foldl
      (fun acc entry =>
        match entry.2 with
        | some rw => if !rw.isEmpty then max acc (rw.backIndex + 1) else acc
        | none => acc) 0 := by
  unfold SheetStorage.printableSize
  simp only [hne, Bool.false_eq_true, if_false]
  apply foldl_fun_congr
  intro b a
  cases ha : a.2 with
  | none => rfl
  | some rw => rfl

theorem cols_ge_mem {st : SheetStorage Cell} (hne : st.rows.isEmpty = false)
    (i : Int) (rw : IndexedStorage Cell)
    (hmem : (i, some rw) ∈ st.rows.entries) (hemp : rw.isEmpty = false) :
    rw.backIndex + 1 ≤ st.printableSize.cols := by
  rw [printableSize_cols_eq hne]
  exact printFold_ge_mem _ _ _ _ hmem hemp

theorem cols_attained {st : SheetStorage Cell}
    (hne : st.rows.isEmpty = false) :
    st.printableSize.cols = 0 ∨
    ∃ i rw, (i, some rw) ∈ st.rows.entries ∧ rw.isEmpty = false ∧
      st.printableSize.cols = rw.backIndex + 1 := by
  rw [printableSize_cols_eq hne]
  exact printFold_attained _ _

theorem entry_of_lookup {T : Type} {s : IndexedStorage T} (h : StorageWF s)
    (i : Int) (v : T) (hl : lookupA s.data i = some v) :
    (i, some v) ∈ s.entries := by
  have hmem : i ∈ s.indices := by
    apply (h.indicesMatch i).mpr
    rw [hl]
    rfl
  unfold IndexedStorage.entries
  have hm2 := List.mem_map_of_mem (fun j => (j, lookupA s.data j)) hmem
  dsimp only at hm2
  rw [hl] at hm2
  exact hm2

theorem lookup_of_entry {T : Type} {s : IndexedStorage T}
    (i : Int) (v : T) (hmem : (i, some v) ∈ s.entries) :
    lookupA s.data i = some v := by
  unfold IndexedStorage.entries at hmem
  obtain ⟨j, hj, heq⟩ := List.mem_map.mp hmem
  simp only [Prod.mk.injEq] at heq
  obtain ⟨rfl, h2⟩ := heq
  exact h2

/-- What `GetPrintableSize` computes on a well-formed grid: every stored
cell lies inside the box, a nonempty grid attains both bounds, and the
size is `{0,0}` exactly when no cell is stored. -/
theorem printableSize_spec {st : SheetStorage Cell} (h : GridWF st) :
    (∀ (p : Position) (c : Cell), gridAt st p = some c →
      p.row < st.printableSize.rows ∧ p.col < st.printableSize.cols) ∧
    ((∃ p c, gridAt st p = some c) →
      (∃ (p : Position) (c : Cell), gridAt st p = some c ∧
        st.printableSize.rows = p.row + 1) ∧
      (∃ (p : Position) (c : Cell), gridAt st p = some c ∧
        st.printableSize.cols = p.col + 1)) ∧
    (st.printableSize = ⟨0, 0⟩ ↔ ∀ p, gridAt st p = none) := by
  cases hdata : st.rows.data with
  | nil =>
      have hnone : ∀ p, gridAt st p = none := by
        intro p
        unfold gridAt
        rw [hdata]
        rfl
      have hsz : st.printableSize = ⟨0, 0⟩ := by
        unfold SheetStorage.printableSize
        have hie : st.rows.isEmpty = true := by
          unfold IndexedStorage.isEmpty
          rw [hdata]
          rfl
        rw [hie]
        rfl
      refine ⟨?_, ?_, ?_⟩
      · intro p c hg
        rw [hnone p] at hg
        cases hg
      · rintro ⟨p, c, hg⟩
        rw [hnone p] at hg
        cases hg
      · exact ⟨fun _ => hnone, fun _ => hsz⟩
  | cons kv rest =>
      have hne : st.rows.data ≠ [] := by rw [hdata]; simp
      have hie : st.rows.isEmpty = false := isEmpty_false_of_ne_nil hne
      have hinz : st.rows.indices ≠ [] := indices_ne_nil_of_data h.rowsWF hne
      obtain ⟨y, hy⟩ := getLast_exists_of_ne_nil _ hinz
      have hB : st.rows.backIndex = y := by
        unfold IndexedStorage.backIndex
        rw [hy]
        rfl
      have hymem : y ∈ st.rows.indices := getLast_mem_of_eq _ _ hy
      have hysome := (h.rowsWF.indicesMatch y).mp hymem
      obtain ⟨rwy, hrowy⟩ := Option.isSome_iff_exists.mp hysome
      obtain ⟨jy, cy, hcy⟩ := row_entry_exists h y rwy hrowy
      have hgy : gridAt st ⟨y, jy⟩ = some cy := by
        unfold gridAt
        dsimp only
        rw [hrowy]
        exact hcy
      have hrows : st.printableSize.rows = y + 1 := by
        rw [printableSize_rows_eq hie, hB]
      have hrowbound : ∀ (p : Position) (c : Cell), gridAt st p = some c →
          p.row < st.printableSize.rows := by
        intro p c hg
        unfold gridAt at hg
        cases hrw : lookupA st.rows.data p.row with
        | none => rw [hrw] at hg; cases hg
        | some rwp =>
            have hpmem : p.row ∈ st.rows.indices := by
              apply (h.rowsWF.indicesMatch p.row).mpr
              rw [hrw]
              rfl
            have hple := sorted_le_getLast _ h.rowsWF.indicesSorted p.row
              hpmem y hy
            omega
      have hcolbound : ∀ (p : Position) (c : Cell), gridAt st p = some c →
          p.col < st.printableSize.cols := by
        intro p c hg
        unfold gridAt at hg
        cases hrw : lookupA st.rows.data p.row with
        | none => rw [hrw] at hg; cases hg
        | some rwp =>
            rw [hrw] at hg
            simp only [Option.some_bind] at hg
            have hrwne : rwp.data ≠ [] := h.rowsNonempty p.row rwp hrw
            have hrwie : rwp.isEmpty = false := isEmpty_false_of_ne_nil hrwne
            have hentry := entry_of_lookup h.rowsWF p.row rwp hrw
            have hge := cols_ge_mem hie p.row rwp hentry hrwie
            have hpc : p.col ∈ rwp.indices := by
              apply ((h.rowWF p.row rwp hrw).indicesMatch p.col).mpr
              rw [hg]
              rfl
            obtain ⟨yc, hyc⟩ := getLast_exists_of_ne_nil _
              (List.ne_nil_of_mem hpc)
            have hbc : rwp.backIndex = yc := by
              unfold IndexedStorage.backIndex
              rw [hyc]
              rfl
            have hle := sorted_le_getLast _
              (h.rowWF p.row rwp hrw).indicesSorted p.col hpc yc hyc
            omega
      have hcolsAttained : ∃ (p : Position) (c : Cell),
          gridAt st p = some c ∧ st.printableSize.cols = p.col + 1 := by
        rcases cols_attained hie with h0 | ⟨i, rwx, hmemx, hempx, heq⟩
        · exfalso
          have hrwyne : rwy.data ≠ [] := h.rowsNonempty y rwy hrowy
          have hrwyie : rwy.isEmpty = false := isEmpty_false_of_ne_nil hrwyne
          have hentryy := entry_of_lookup h.rowsWF y rwy hrowy
          have hge := cols_ge_mem hie y rwy hentryy hrwyie
          have hjy : jy ∈ rwy.indices := by
            apply ((h.rowWF y rwy hrowy).indicesMatch jy).mpr
            rw [hcy]
            rfl
          obtain ⟨ycy, hycy⟩ := getLast_exists_of_ne_nil _
            (List.ne_nil_of_mem hjy)
          have hbcy : rwy.backIndex = ycy := by
            unfold IndexedStorage.backIndex
            rw [hycy]
            rfl
          have hmemyc : ycy ∈ rwy.indices := getLast_mem_of_eq _ _ hycy
          have hsomec := ((h.rowWF y rwy hrowy).indicesMatch ycy).mp hmemyc
          obtain ⟨cc, hcc⟩ := Option.isSome_iff_exists.mp hsomec
          have hcv := h.colIdxValid y rwy hrowy ycy cc hcc
          omega
        · have hlx : lookupA st.rows.data i = some rwx :=
            lookup_of_entry i rwx hmemx
          have hrwxne : rwx.data ≠ [] := h.rowsNonempty i rwx hlx
          obtain ⟨ycx, hycx⟩ := getLast_exists_of_ne_nil _
            (indices_ne_nil_of_data (h.rowWF i rwx hlx) hrwxne)
          have hbcx : rwx.backIndex = ycx := by
            unfold IndexedStorage.backIndex
            rw [hycx]
            rfl
          have hmemycx : ycx ∈ rwx.indices := getLast_mem_of_eq _ _ hycx
          have hsomec := ((h.rowWF i rwx hlx).indicesMatch ycx).mp hmemycx
          obtain ⟨cc, hcc⟩ := Option.isSome_iff_exists.mp hsomec
          refine ⟨⟨i, ycx⟩, cc, ?_, ?_⟩
          · unfold gridAt
            dsimp only
            rw [hlx]
            exact hcc
          · dsimp only
            rw [heq, hbcx]
      have hrowsAttained : ∃ (p : Position) (c : Cell),
          gridAt st p = some c ∧ st.printableSize.rows = p.row + 1 :=
        ⟨⟨y, jy⟩, cy, hgy, by dsimp only; rw [hrows]⟩
      have hy0 : 0 ≤ y := (h.rowIdxValid y rwy hrowy).1
      refine ⟨?_, ?_, ?_⟩
      · intro p c hg
        exact ⟨hrowbound p c hg, hcolbound p c hg⟩
      · intro _
        exact ⟨hrowsAttained, hcolsAttained⟩
      · constructor
        · intro hsz
          exfalso
          have hr0 : st.printableSize.rows = 0 := by rw [hsz]
          omega
        · intro hall
          exfalso
          rw [hall ⟨y, jy⟩] at hgy
          cases hgy

/-- C8: after every sequence of public operations applied to a fresh
sheet, `GetPrintableSize` describes the minimal bounding box of the
stored cells: every stored cell lies strictly inside `rows × cols`, in a
nonempty grid `rows` is one more than the maximal stored row index and
`cols` one more than the maximal stored column index (both attained at a
stored cell), the size is `{0,0}` exactly when no cell is stored, and no
empty row container is ever stored. -/
theorem printable_size_invariant (ops : List SheetOp) :
    (∀ (p : Position) (c : Cell), gridAt (runOps ops).cells p = some c →
      p.row < (runOps ops).cells.printableSize.rows ∧
      p.col < (runOps ops).cells.printableSize.cols) ∧
    ((∃ p c, gridAt (runOps ops).cells p = some c) →
      (∃ (p : Position) (c : Cell), gridAt (runOps ops).cells p = some c ∧
        (runOps ops).cells.printableSize.rows = p.row + 1) ∧
      (∃ (p : Position) (c : Cell), gridAt (runOps ops).cells p = some c ∧
        (runOps ops).cells.printableSize.cols = p.col + 1)) ∧
    ((runOps ops).cells.printableSize = ⟨0, 0⟩ ↔
      ∀ p, gridAt (runOps ops).cells p = none) ∧
    (∀ (i : Int) (rw : IndexedStorage Cell),
      lookupA (runOps ops).cells.rows.data i = some rw → rw.data ≠ []) := by
  have h := sheetWF_runOps ops
  obtain ⟨h1, h2, h3⟩ := printableSize_spec h.grid
  exact ⟨h1, h2, h3, h.grid.rowsNonempty⟩
